import Mathlib

/-!
Verification of the esp-string-parser core against its specification.

Bytes are modelled as natural numbers below 256 in `List Nat`; little-endian
integers are decoded/encoded explicitly.  External libraries (zlib inflate and
deflate, text-encoding conversion) are abstracted as function parameters; every
other definition is a direct shallow embedding of the corresponding Rust
function from the repository's source.
-/

set_option maxRecDepth 10000

namespace EspParser

/-- Little-endian 16-bit value of two bytes, as `byteorder` reads it. -/
def leVal2 (b0 b1 : Nat) : Nat := b0 + 256 * b1

/-- Little-endian 32-bit value of four bytes, as `byteorder` reads it. -/
def leVal4 (b0 b1 b2 b3 : Nat) : Nat :=
  b0 + 256 * b1 + 65536 * b2 + 16777216 * b3

/-- Little-endian encoding of a 16-bit value (`u16::to_le_bytes`). -/
def le16 (n : Nat) : List Nat := [n % 256, n / 256 % 256]

/-- Little-endian encoding of a 32-bit value (`u32::to_le_bytes`). -/
def le32 (n : Nat) : List Nat :=
  [n % 256, n / 256 % 256, n / 65536 % 256, n / 16777216 % 256]

theorem le16_leVal2 (b0 b1 : Nat) (h0 : b0 < 256) (h1 : b1 < 256) :
    le16 (leVal2 b0 b1) = [b0, b1] := by
  simp only [le16, leVal2]
  congr 1
  · omega
  congr 1
  · omega

theorem le32_leVal4 (b0 b1 b2 b3 : Nat) (h0 : b0 < 256) (h1 : b1 < 256)
    (h2 : b2 < 256) (h3 : b3 < 256) :
    le32 (leVal4 b0 b1 b2 b3) = [b0, b1, b2, b3] := by
  simp only [le32, leVal4]
  congr 1
  · omega
  congr 1
  · omega
  congr 1
  · omega
  congr 1
  · omega

theorem leVal2_lt (b0 b1 : Nat) (h0 : b0 < 256) (h1 : b1 < 256) :
    leVal2 b0 b1 < 65536 := by
  simp only [leVal2]; omega

theorem leVal4_lt (b0 b1 b2 b3 : Nat) (h0 : b0 < 256) (h1 : b1 < 256)
    (h2 : b2 < 256) (h3 : b3 < 256) : leVal4 b0 b1 b2 b3 < 4294967296 := by
  simp only [leVal4]; omega

/-- The four bytes of the `"XXXX"` oversized-field sentinel tag. -/
def xxxxTag : List Nat := [88, 88, 88, 88]

/-- Shallow embedding of `Subrecord` (src/subrecord.rs): a 4-byte type tag,
a declared 16-bit size, and the raw payload bytes. -/
structure Subrecord where
  record_type_bytes : List Nat
  size : Nat
  data : List Nat
  deriving Repr, DecidableEq

/-- Shallow embedding of `Subrecord::parse` (src/subrecord.rs).  Consumes one
subrecord from the front of `bytes` and returns it with the remaining bytes;
`none` models the `Err` cases.  The `XXXX` sentinel path reads the real 32-bit
size, then the next subrecord's header, and uses the real size for the payload,
storing declared size 0 as the oversized marker. -/
def parseSubrecord (bytes : List Nat) : Option (Subrecord × List Nat) :=
  match bytes with
  | t0 :: t1 :: t2 :: t3 :: s0 :: s1 :: rest =>
    let size := leVal2 s0 s1
    if [t0, t1, t2, t3] = xxxxTag then
      if size ≠ 4 then
        none
      else
        match rest with
        | f0 :: f1 :: f2 :: f3 :: n0 :: n1 :: n2 :: n3 :: z0 :: z1 :: rest2 =>
          let fieldSize := leVal4 f0 f1 f2 f3
          let _nextSize := leVal2 z0 z1
          if fieldSize ≤ rest2.length then
            some (⟨[n0, n1, n2, n3], 0, rest2.take fieldSize⟩,
              rest2.drop fieldSize)
          else
            none
        | _ => none
    else
      if size ≤ rest.length then
        some (⟨[t0, t1, t2, t3], size, rest.take size⟩, rest.drop size)
      else
        none
  | _ => none

theorem parseSubrecord_rest_lt (bytes rest : List Nat) (sr : Subrecord)
    (h : parseSubrecord bytes = some (sr, rest)) :
    rest.length < bytes.length := by
  match bytes with
  | t0 :: t1 :: t2 :: t3 :: s0 :: s1 :: tail =>
    simp only [parseSubrecord] at h
    split at h
    · split at h
      · exact absurd h (by simp)
      · match tail with
        | f0 :: f1 :: f2 :: f3 :: n0 :: n1 :: n2 :: n3 :: z0 :: z1 :: tail2 =>
          simp only at h
          split at h
          · simp only [Option.some.injEq, Prod.mk.injEq] at h
            have := h.2
            subst this
            simp only [List.length_drop, List.length_cons]
            omega
          · exact absurd h (by simp)
        | [] => exact absurd h (by simp)
        | [a] => exact absurd h (by simp)
        | [a, b] => exact absurd h (by simp)
        | [a, b, c] => exact absurd h (by simp)
        | [a, b, c, d] => exact absurd h (by simp)
        | [a, b, c, d, e] => exact absurd h (by simp)
        | [a, b, c, d, e, f] => exact absurd h (by simp)
        | [a, b, c, d, e, f, g] => exact absurd h (by simp)
        | [a, b, c, d, e, f, g, i] => exact absurd h (by simp)
        | [a, b, c, d, e, f, g, i, j] => exact absurd h (by simp)
    · split at h
      · simp only [Option.some.injEq, Prod.mk.injEq] at h
        have := h.2
        subst this
        simp only [List.length_drop, List.length_cons]
        omega
      · exact absurd h (by simp)
  | [] => exact absurd h (by simp [parseSubrecord])
  | [a] => exact absurd h (by simp [parseSubrecord])
  | [a, b] => exact absurd h (by simp [parseSubrecord])
  | [a, b, c] => exact absurd h (by simp [parseSubrecord])
  | [a, b, c, d] => exact absurd h (by simp [parseSubrecord])
  | [a, b, c, d, e] => exact absurd h (by simp [parseSubrecord])

/-- Loop body of `Record::parse_subrecords` (src/record.rs), with an explicit
fuel counter so the recursion is structural: fewer than 6 remaining bytes must
be all-zero padding (silently accepted) or the parse fails; otherwise one
subrecord is consumed and the loop continues.  Each iteration consumes at
least 6 bytes, so fuel equal to the byte count never runs out
(`parseSubrecordsGo_fuel_irrelevant`). -/
def parseSubrecordsGo (fuel : Nat) (bytes : List Nat) :
    Option (List Subrecord) :=
  if bytes.length < 6 then
    if bytes.all (· == 0) then some [] else none
  else
    match fuel, parseSubrecord bytes with
    | fuel' + 1, some (sr, rest) =>
      (parseSubrecordsGo fuel' rest).map (sr :: ·)
    | _, _ => none

/-- Shallow embedding of `Record::parse_subrecords` (src/record.rs). -/
def parseSubrecords (bytes : List Nat) : Option (List Subrecord) :=
  parseSubrecordsGo bytes.length bytes

/-- Any fuel of at least the byte count gives the same result, so the fuel
counter in `parseSubrecordsGo` is only a termination device and
`parseSubrecords` is the Rust loop. -/
theorem parseSubrecordsGo_fuel_irrelevant (fuel fuel' : Nat)
    (bytes : List Nat) (hf : bytes.length ≤ fuel) (hf' : bytes.length ≤ fuel') :
    parseSubrecordsGo fuel bytes = parseSubrecordsGo fuel' bytes := by
  induction fuel using Nat.strong_induction_on generalizing fuel' bytes with
  | _ fuel ih =>
    rw [parseSubrecordsGo.eq_def, parseSubrecordsGo.eq_def]
    split
    · rfl
    case isFalse h6 =>
      cases hps : parseSubrecord bytes with
      | none =>
        cases fuel with
        | zero => omega
        | succ f =>
          cases fuel' with
          | zero => omega
          | succ f' => simp only [hps]
      | some p =>
        obtain ⟨sr, rest⟩ := p
        have hlt := parseSubrecord_rest_lt bytes rest sr hps
        cases fuel with
        | zero => omega
        | succ f =>
          cases fuel' with
          | zero => omega
          | succ f' =>
            simp only [hps]
            rw [ih f (by omega) f' rest (by omega) (by omega)]

/-- Shallow embedding of `Record` (src/record.rs).  The 4-byte type tag is
kept as raw bytes; integer header fields hold the decoded little-endian
values. -/
structure Record where
  record_type_bytes : List Nat
  data_size : Nat
  flags : Nat
  form_id : Nat
  timestamp : Nat
  version_control_info : Nat
  internal_version : Nat
  unknown : Nat
  original_compressed_data : Option (List Nat)
  raw_data : List Nat
  subrecords : List Subrecord
  is_modified : Bool
  deriving Repr, DecidableEq

/-- `RecordFlags::COMPRESSED` (src/datatypes.rs): bit `0x00040000`. -/
def compressedFlag : Nat := 0x00040000

/-- Shallow embedding of `Record::decompress_data` (src/record.rs), with the
zlib stream decoder (`flate2::read::ZlibDecoder`) abstracted as `inflate`.
The first four payload bytes give the expected decompressed size, which is
validated (non-zero, at most 50 MB) and checked against the actual
decompressed length. -/
def decompressData (inflate : List Nat → Option (List Nat))
    (data : List Nat) : Option (List Nat) :=
  match data with
  | d0 :: d1 :: d2 :: d3 :: compressed =>
    let decompressedSize := leVal4 d0 d1 d2 d3
    if decompressedSize = 0 then none
    else if decompressedSize > 50000000 then none
    else if compressed.isEmpty then none
    else
      match inflate compressed with
      | some decompressed =>
        if decompressed.length ≠ decompressedSize then none
        else some decompressed
      | none => none
  | _ => none

/-- Shallow embedding of `Record::handle_compression` (src/record.rs).
Returns `(final_data, parse_subrecords, original_compressed, warned)`, where
the extra `warned` component records the decompression-failure warning the
Rust code prints to stderr.  On failure the record keeps its compressed bytes
and no subrecords are parsed. -/
def handleCompression (inflate : List Nat → Option (List Nat))
    (data : List Nat) (flags : Nat) :
    List Nat × Bool × Option (List Nat) × Bool :=
  if flags &&& compressedFlag ≠ 0 then
    match decompressData inflate data with
    | some decompressed => (decompressed, true, some data, false)
    | none => (data, false, some data, true)
  else
    (data, true, none, false)

/-- Shallow embedding of `Record::parse` (src/record.rs).  Reads the 24-byte
header (type tag, data size, flags, FormID, four 16-bit fields), validates the
declared size (at most 100 MB) and availability, reads the payload, handles
compression, and parses subrecords unless the record went opaque.  Returns the
record and the remaining bytes. -/
def parseRecord (inflate : List Nat → Option (List Nat)) (bytes : List Nat) :
    Option (Record × List Nat) :=
  match bytes with
  | t0 :: t1 :: t2 :: t3 :: s0 :: s1 :: s2 :: s3 :: g0 :: g1 :: g2 :: g3 ::
      i0 :: i1 :: i2 :: i3 :: a0 :: a1 :: b0 :: b1 :: c0 :: c1 :: d0 :: d1 ::
      rest =>
    let dataSize := leVal4 s0 s1 s2 s3
    if dataSize > 100000000 then none
    else
      let flags := leVal4 g0 g1 g2 g3
      let formId := leVal4 i0 i1 i2 i3
      let timestamp := leVal2 a0 a1
      let versionControlInfo := leVal2 b0 b1
      let internalVersion := leVal2 c0 c1
      let unknown := leVal2 d0 d1
      if dataSize ≤ rest.length then
        let data := rest.take dataSize
        let hc := handleCompression inflate data flags
        let subrecords? : Option (List Subrecord) :=
          if hc.2.1 then parseSubrecords hc.1 else some []
        match subrecords? with
        | some subrecords =>
          some (⟨[t0, t1, t2, t3], dataSize, flags, formId, timestamp,
            versionControlInfo, internalVersion, unknown, hc.2.2.1, hc.1,
            subrecords, false⟩, rest.drop dataSize)
        | none => none
      else none
  | _ => none

/-- Shallow embedding of `Plugin::write_record` (src/plugin/writer.rs), with
zlib compression (`Record::recompress_data`) abstracted as `deflate`.  An
unmodified record re-emits its retained original bytes (the compressed form
when one was retained); a modified record re-serializes its subrecords and, if
originally compressed, recompresses them.  Returns the bytes appended to the
output vector. -/
def writeRecord (deflate : List Nat → List Nat) (r : Record) : List Nat :=
  let isOriginallyCompressed := r.flags &&& compressedFlag ≠ 0
  let dataToWrite : List Nat :=
    if r.is_modified then
      let subrecordData :=
        (r.subrecords.map (fun sr =>
          sr.record_type_bytes ++ le16 (sr.data.length % 65536) ++
            sr.data)).flatten
      if isOriginallyCompressed then
        le32 (subrecordData.length % 4294967296) ++ deflate subrecordData
      else
        subrecordData
    else
      match r.original_compressed_data with
      | some compressedData => compressedData
      | none => r.raw_data
  r.record_type_bytes ++ le32 (dataToWrite.length % 4294967296) ++
    le32 r.flags ++ le32 r.form_id ++ le16 r.timestamp ++
    le16 r.version_control_info ++ le16 r.internal_version ++
    le16 r.unknown ++ dataToWrite

/-- C10: the `XXXX` oversized-field escape: a sentinel whose declared 16-bit
size is not exactly 4 is a parse error; when it is 4, the following 4 bytes
give the real 32-bit size and the next subrecord's payload is read using that
real size, not its own declared size (the stored size becomes the marker 0). -/
theorem xxxx_escape_realSize :
    (∀ s0 s1 : Nat, ∀ rest : List Nat, leVal2 s0 s1 ≠ 4 →
      parseSubrecord (xxxxTag ++ s0 :: s1 :: rest) = none) ∧
    (∀ s0 s1 f0 f1 f2 f3 n0 n1 n2 n3 z0 z1 : Nat, ∀ rest2 : List Nat,
      leVal2 s0 s1 = 4 → leVal4 f0 f1 f2 f3 ≤ rest2.length →
      parseSubrecord (xxxxTag ++ s0 :: s1 :: f0 :: f1 :: f2 :: f3 ::
          n0 :: n1 :: n2 :: n3 :: z0 :: z1 :: rest2) =
        some (⟨[n0, n1, n2, n3], 0, rest2.take (leVal4 f0 f1 f2 f3)⟩,
          rest2.drop (leVal4 f0 f1 f2 f3))) := by
  constructor
  · intro s0 s1 rest hne
    simp [parseSubrecord, xxxxTag, hne]
  · intro s0 s1 f0 f1 f2 f3 n0 n1 n2 n3 z0 z1 rest2 hs hfit
    simp [parseSubrecord, xxxxTag, hs, hfit]

/-- Witness for `xxxx_escape_realSize`: a sentinel with declared size 5 is
rejected; a sentinel with declared size 4 and real size 3 yields the next
subrecord (type `DATA`, here bytes 68 65 84 65) with marker size 0 and a
3-byte payload read past the next header's declared size 0. -/
theorem xxxx_escape_realSize_witness :
    parseSubrecord (xxxxTag ++ 5 :: 0 :: [1, 2, 3]) = none ∧
    parseSubrecord (xxxxTag ++ 4 :: 0 :: 3 :: 0 :: 0 :: 0 ::
        68 :: 65 :: 84 :: 65 :: 0 :: 0 :: [7, 8, 9, 10]) =
      some (⟨[68, 65, 84, 65], 0, [7, 8, 9]⟩, [10]) := by
  constructor
  · exact xxxx_escape_realSize.1 5 0 [1, 2, 3] (by decide)
  · have h := xxxx_escape_realSize.2 4 0 3 0 0 0 68 65 84 65 0 0
      [7, 8, 9, 10] (by decide) (by decide)
    simpa using h

/-- C6: a record with the compressed flag (0x40000) set whose payload fails to
decompress still parses successfully and comes back opaque: flags preserved,
no subrecords, the original compressed bytes retained, and the decompression
warning surfaced; the failure never aborts the parse. -/
theorem compressed_record_decompress_failure_opaque
    (inflate : List Nat → Option (List Nat))
    (t0 t1 t2 t3 s0 s1 s2 s3 g0 g1 g2 g3 i0 i1 i2 i3 a0 a1 b0 b1 c0 c1 d0 d1 :
      Nat) (rest : List Nat)
    (hsize : leVal4 s0 s1 s2 s3 ≤ 100000000)
    (havail : leVal4 s0 s1 s2 s3 ≤ rest.length)
    (hflag : leVal4 g0 g1 g2 g3 &&& compressedFlag ≠ 0)
    (hfail : decompressData inflate (rest.take (leVal4 s0 s1 s2 s3)) = none) :
    parseRecord inflate (t0 :: t1 :: t2 :: t3 :: s0 :: s1 :: s2 :: s3 ::
        g0 :: g1 :: g2 :: g3 :: i0 :: i1 :: i2 :: i3 :: a0 :: a1 :: b0 :: b1 ::
        c0 :: c1 :: d0 :: d1 :: rest) =
      some (⟨[t0, t1, t2, t3], leVal4 s0 s1 s2 s3, leVal4 g0 g1 g2 g3,
        leVal4 i0 i1 i2 i3, leVal2 a0 a1, leVal2 b0 b1, leVal2 c0 c1,
        leVal2 d0 d1, some (rest.take (leVal4 s0 s1 s2 s3)),
        rest.take (leVal4 s0 s1 s2 s3), [], false⟩,
        rest.drop (leVal4 s0 s1 s2 s3)) ∧
    (handleCompression inflate (rest.take (leVal4 s0 s1 s2 s3))
        (leVal4 g0 g1 g2 g3)).2.2.2 = true := by
  have hhc : handleCompression inflate (rest.take (leVal4 s0 s1 s2 s3))
      (leVal4 g0 g1 g2 g3) =
      (rest.take (leVal4 s0 s1 s2 s3), false,
        some (rest.take (leVal4 s0 s1 s2 s3)), true) := by
    simp [handleCompression, hflag, hfail]
  refine ⟨?_, by rw [hhc]⟩
  simp only [parseRecord]
  rw [if_neg (by omega), if_pos havail, hhc]
  simp

/-- Witness for `compressed_record_decompress_failure_opaque`: a 5-byte
payload whose declared decompressed size (little-endian 1 2 3 4, about 67 MB)
fails `decompress_data`'s 50 MB validation; the record still parses, opaque,
with its flags (0x40000) and compressed bytes intact and the warning set. -/
theorem compressed_record_decompress_failure_opaque_witness :
    (leVal4 0 0 4 0 &&& compressedFlag ≠ 0) ∧
    decompressData (fun _ => none) [1, 2, 3, 4, 5] = none ∧
    parseRecord (fun _ => none) (65 :: 65 :: 65 :: 65 :: 5 :: 0 :: 0 :: 0 ::
        0 :: 0 :: 4 :: 0 :: 9 :: 0 :: 0 :: 0 :: 0 :: 0 :: 0 :: 0 ::
        0 :: 0 :: 0 :: 0 :: [1, 2, 3, 4, 5]) =
      some (⟨[65, 65, 65, 65], 5, 262144, 9, 0, 0, 0, 0,
        some [1, 2, 3, 4, 5], [1, 2, 3, 4, 5], [], false⟩, []) := by
  refine ⟨by decide, by decide, ?_⟩
  have h := compressed_record_decompress_failure_opaque (fun _ => none)
    65 65 65 65 5 0 0 0 0 0 4 0 9 0 0 0 0 0 0 0 0 0 0 0 [1, 2, 3, 4, 5]
    (by decide) (by decide) (by decide) (by decide)
  have h1 := h.1
  simpa using h1

/-- The data an unmodified record re-emits: the retained compressed bytes when
present, else the raw payload (the `else` branch of `write_record`). -/
def unmodifiedData (oc : Option (List Nat)) (rd : List Nat) : List Nat :=
  match oc with
  | some compressedData => compressedData
  | none => rd

theorem writeRecord_mk_not_modified (deflate : List Nat → List Nat)
    (tb : List Nat) (ds fl fi ts vc iv un : Nat) (oc : Option (List Nat))
    (rd : List Nat) (srs : List Subrecord) :
    writeRecord deflate ⟨tb, ds, fl, fi, ts, vc, iv, un, oc, rd, srs, false⟩ =
      tb ++ le32 ((unmodifiedData oc rd).length % 4294967296) ++ le32 fl ++
        le32 fi ++ le16 ts ++ le16 vc ++ le16 iv ++ le16 un ++
        unmodifiedData oc rd := rfl

/-- Whatever `handle_compression` decides, the bytes an unmodified record will
re-emit (retained compressed data if any, else the final data) are exactly the
payload bytes that were read from the file. -/
theorem handleCompression_retained (inflate : List Nat → Option (List Nat))
    (data : List Nat) (flags : Nat) :
    unmodifiedData (handleCompression inflate data flags).2.2.1
      (handleCompression inflate data flags).1 = data := by
  unfold handleCompression
  by_cases hf : flags &&& compressedFlag = 0
  · simp [hf, unmodifiedData]
  · cases hdc : decompressData inflate data <;>
      simp [hf, hdc, unmodifiedData]

/-- C1: for every byte sequence of all-bytes (values below 256) accepted by
`Record::parse`, if the resulting record is unmodified then `write_record`
emits exactly the bytes the parse consumed — compressed records re-emit their
retained compressed bytes verbatim. -/
theorem unmodified_record_write_roundtrip
    (inflate : List Nat → Option (List Nat)) (deflate : List Nat → List Nat)
    (bytes rest : List Nat) (r : Record)
    (hb : ∀ b ∈ bytes, b < 256)
    (hp : parseRecord inflate bytes = some (r, rest))
    (hm : r.is_modified = false) :
    writeRecord deflate r ++ rest = bytes := by
  clear hm
  rcases bytes with _ | ⟨t0, bytes⟩; · exact absurd hp (by simp [parseRecord])
  rcases bytes with _ | ⟨t1, bytes⟩; · exact absurd hp (by simp [parseRecord])
  rcases bytes with _ | ⟨t2, bytes⟩; · exact absurd hp (by simp [parseRecord])
  rcases bytes with _ | ⟨t3, bytes⟩; · exact absurd hp (by simp [parseRecord])
  rcases bytes with _ | ⟨s0, bytes⟩; · exact absurd hp (by simp [parseRecord])
  rcases bytes with _ | ⟨s1, bytes⟩; · exact absurd hp (by simp [parseRecord])
  rcases bytes with _ | ⟨s2, bytes⟩; · exact absurd hp (by simp [parseRecord])
  rcases bytes with _ | ⟨s3, bytes⟩; · exact absurd hp (by simp [parseRecord])
  rcases bytes with _ | ⟨g0, bytes⟩; · exact absurd hp (by simp [parseRecord])
  rcases bytes with _ | ⟨g1, bytes⟩; · exact absurd hp (by simp [parseRecord])
  rcases bytes with _ | ⟨g2, bytes⟩; · exact absurd hp (by simp [parseRecord])
  rcases bytes with _ | ⟨g3, bytes⟩; · exact absurd hp (by simp [parseRecord])
  rcases bytes with _ | ⟨i0, bytes⟩; · exact absurd hp (by simp [parseRecord])
  rcases bytes with _ | ⟨i1, bytes⟩; · exact absurd hp (by simp [parseRecord])
  rcases bytes with _ | ⟨i2, bytes⟩; · exact absurd hp (by simp [parseRecord])
  rcases bytes with _ | ⟨i3, bytes⟩; · exact absurd hp (by simp [parseRecord])
  rcases bytes with _ | ⟨a0, bytes⟩; · exact absurd hp (by simp [parseRecord])
  rcases bytes with _ | ⟨a1, bytes⟩; · exact absurd hp (by simp [parseRecord])
  rcases bytes with _ | ⟨b0, bytes⟩; · exact absurd hp (by simp [parseRecord])
  rcases bytes with _ | ⟨b1, bytes⟩; · exact absurd hp (by simp [parseRecord])
  rcases bytes with _ | ⟨c0, bytes⟩; · exact absurd hp (by simp [parseRecord])
  rcases bytes with _ | ⟨c1, bytes⟩; · exact absurd hp (by simp [parseRecord])
  rcases bytes with _ | ⟨d0, bytes⟩; · exact absurd hp (by simp [parseRecord])
  rcases bytes with _ | ⟨d1, tail⟩; · exact absurd hp (by simp [parseRecord])
  have hs0 : s0 < 256 := hb _ (by simp)
  have hs1 : s1 < 256 := hb _ (by simp)
  have hs2 : s2 < 256 := hb _ (by simp)
  have hs3 : s3 < 256 := hb _ (by simp)
  have hg0 : g0 < 256 := hb _ (by simp)
  have hg1 : g1 < 256 := hb _ (by simp)
  have hg2 : g2 < 256 := hb _ (by simp)
  have hg3 : g3 < 256 := hb _ (by simp)
  have hi0 : i0 < 256 := hb _ (by simp)
  have hi1 : i1 < 256 := hb _ (by simp)
  have hi2 : i2 < 256 := hb _ (by simp)
  have hi3 : i3 < 256 := hb _ (by simp)
  have ha0 : a0 < 256 := hb _ (by simp)
  have ha1 : a1 < 256 := hb _ (by simp)
  have hb0 : b0 < 256 := hb _ (by simp)
  have hb1 : b1 < 256 := hb _ (by simp)
  have hc0 : c0 < 256 := hb _ (by simp)
  have hc1 : c1 < 256 := hb _ (by simp)
  have hd0 : d0 < 256 := hb _ (by simp)
  have hd1 : d1 < 256 := hb _ (by simp)
  simp only [parseRecord] at hp
  split at hp
  · exact absurd hp (by simp)
  · split at hp
    case isFalse => exact absurd hp (by simp)
    case isTrue havail =>
      split at hp
      case h_2 => exact absurd hp (by simp)
      case h_1 subrecords hsub =>
        rw [Option.some_inj, Prod.mk.injEq] at hp
        obtain ⟨hrec, hrest⟩ := hp
        subst hrest
        rw [← hrec]
        rw [writeRecord_mk_not_modified, handleCompression_retained]
        have hlen : (tail.take (leVal4 s0 s1 s2 s3)).length =
            leVal4 s0 s1 s2 s3 := by
          simp [List.length_take]; omega
        rw [hlen,
          Nat.mod_eq_of_lt (leVal4_lt _ _ _ _ hs0 hs1 hs2 hs3),
          le32_leVal4 _ _ _ _ hs0 hs1 hs2 hs3,
          le32_leVal4 _ _ _ _ hg0 hg1 hg2 hg3,
          le32_leVal4 _ _ _ _ hi0 hi1 hi2 hi3,
          le16_leVal2 _ _ ha0 ha1, le16_leVal2 _ _ hb0 hb1,
          le16_leVal2 _ _ hc0 hc1, le16_leVal2 _ _ hd0 hd1]
        simp [List.take_append_drop]

/-- Witness for `unmodified_record_write_roundtrip`: a compressed record (flag
0x40000, 7-byte compressed payload, inflate oracle producing one well-formed
subrecord) is parsed and rewritten unmodified; the rewritten bytes equal the
input bytes, with the retained compressed payload re-emitted verbatim. -/
theorem unmodified_record_write_roundtrip_witness :
    ∃ r : Record,
      parseRecord (fun _ => some [65, 66, 67, 68, 1, 0, 7])
          (65 :: 66 :: 67 :: 68 :: 7 :: 0 :: 0 :: 0 ::
            0 :: 0 :: 4 :: 0 :: 7 :: 0 :: 0 :: 0 :: 1 :: 0 :: 2 :: 0 ::
            3 :: 0 :: 4 :: 0 :: [7, 0, 0, 0, 10, 20, 30]) =
        some (r, []) ∧
      r.is_modified = false ∧
      writeRecord (fun d => d) r ++ [] =
        (65 :: 66 :: 67 :: 68 :: 7 :: 0 :: 0 :: 0 ::
          0 :: 0 :: 4 :: 0 :: 7 :: 0 :: 0 :: 0 :: 1 :: 0 :: 2 :: 0 ::
          3 :: 0 :: 4 :: 0 :: [7, 0, 0, 0, 10, 20, 30]) := by
  refine ⟨⟨[65, 66, 67, 68], 7, 262144, 7, 1, 2, 3, 4,
    some [7, 0, 0, 0, 10, 20, 30], [65, 66, 67, 68, 1, 0, 7],
    [⟨[65, 66, 67, 68], 1, [7]⟩], false⟩, ?hp, by decide, ?_⟩
  case hp => decide
  exact unmodified_record_write_roundtrip (fun _ => some [65, 66, 67, 68, 1, 0, 7])
    (fun d => d) _ [] _ (by decide) (by decide) (by decide)

/-- Shallow embedding of `GroupType` (src/group.rs). -/
inductive GroupType where
  | normal
  | world
  | cell
  | unknown (value : Int)
  deriving Repr, DecidableEq

/-- `GroupType::to_i32` (src/group.rs). -/
def GroupType.toI32 : GroupType → Int
  | .normal => 0
  | .world => 1
  | .cell => 6
  | .unknown value => value

mutual
/-- Shallow embedding of `Group` (src/group.rs): declared size, 4-byte label,
group kind, three metadata fields, and the ordered children. -/
inductive Group where
  | mk (size : Nat) (label : List Nat) (group_type : GroupType)
      (timestamp : Nat) (version_control_info : Nat) (unknown : Nat)
      (children : List GroupChild) : Group

/-- Shallow embedding of `GroupChild` (src/group.rs). -/
inductive GroupChild where
  | group (g : Group) : GroupChild
  | record (r : Record) : GroupChild
end

def Group.children : Group → List GroupChild
  | .mk _ _ _ _ _ _ cs => cs

/-- The bytes of the `"GRUP"` magic. -/
def grupTag : List Nat := [71, 82, 85, 80]

/-- Little-endian bytes of an `i32` (`i32::to_le_bytes`): two's complement. -/
def le32i (v : Int) : List Nat := le32 (v % 4294967296).toNat

/-- `output[pos..pos + vals.length].copy_from_slice(vals)` on a byte list. -/
def setBytes (output : List Nat) (pos : Nat) (vals : List Nat) : List Nat :=
  output.take pos ++ vals ++ output.drop (pos + vals.length)

/-- The back-patch step at the end of `write_group` (src/plugin/writer.rs):
`actual_size = output.len() - size_pos + 4` is written over the placeholder at
`size_pos`. -/
def backpatchSize (sizePos : Nat) (out3 : List Nat) : List Nat :=
  setBytes out3 sizePos (le32 ((out3.length - sizePos + 4) % 4294967296))

mutual
/-- Shallow embedding of `Plugin::write_group` (src/plugin/writer.rs):
appends the `GRUP` magic, records `size_pos`, appends a 4-byte size
placeholder, label, group type, metadata, then all children, and finally
back-patches the size field. -/
def writeGroupAux (deflate : List Nat → List Nat) (g : Group)
    (output : List Nat) : List Nat :=
  match g with
  | .mk _size label gt ts vc unk children =>
    backpatchSize (output ++ grupTag).length
      (writeChildrenAux deflate children
        ((output ++ grupTag) ++ ([0, 0, 0, 0] ++ label ++ le32i gt.toI32 ++
          le16 ts ++ le16 vc ++ le32 unk)))

/-- The `for child in &group.children` loop of `write_group`. -/
def writeChildrenAux (deflate : List Nat → List Nat) (cs : List GroupChild)
    (output : List Nat) : List Nat :=
  match cs with
  | [] => output
  | c :: rest => writeChildrenAux deflate rest (writeChildAux deflate c output)

/-- One arm of the child match in `write_group`: a nested group recurses, a
record appends `write_record`'s bytes. -/
def writeChildAux (deflate : List Nat → List Nat) (c : GroupChild)
    (output : List Nat) : List Nat :=
  match c with
  | .group sub => writeGroupAux deflate sub output
  | .record r => output ++ writeRecord deflate r
end

theorem setBytes_append (a b : List Nat) (p : Nat) (v : List Nat) :
    setBytes (a ++ b) (a.length + p) v = a ++ setBytes b p v := by
  simp only [setBytes, List.take_append_eq_append_take,
    List.drop_append_eq_append_drop, Nat.add_assoc]
  rw [List.take_of_length_le (by omega), List.drop_eq_nil_of_le (by omega)]
  simp [Nat.add_sub_cancel_left]

theorem backpatchSize_append (a b : List Nat) (p : Nat) (hp : p ≤ b.length) :
    backpatchSize (a.length + p) (a ++ b) = a ++ backpatchSize p b := by
  unfold backpatchSize
  have harith : (a ++ b).length - (a.length + p) + 4 = b.length - p + 4 := by
    simp only [List.length_append]
    omega
  rw [harith, setBytes_append]

mutual
theorem writeGroupAux_append (deflate : List Nat → List Nat) (g : Group)
    (out : List Nat) :
    writeGroupAux deflate g out = out ++ writeGroupAux deflate g [] := by
  match g with
  | .mk _size label gt ts vc unk children =>
    rw [writeGroupAux, writeGroupAux]
    rw [writeChildrenAux_append deflate children
        ((out ++ grupTag) ++ ([0, 0, 0, 0] ++ label ++ le32i gt.toI32 ++
          le16 ts ++ le16 vc ++ le32 unk)),
      writeChildrenAux_append deflate children
        ((([] : List Nat) ++ grupTag) ++ ([0, 0, 0, 0] ++ label ++
          le32i gt.toI32 ++ le16 ts ++ le16 vc ++ le32 unk))]
    have hb := backpatchSize_append out
      (grupTag ++ (([0, 0, 0, 0] ++ label ++ le32i gt.toI32 ++ le16 ts ++
        le16 vc ++ le32 unk) ++ writeChildrenAux deflate children []))
      grupTag.length (by simp)
    simp only [List.append_assoc, List.length_append, List.nil_append,
      List.length_nil, Nat.zero_add] at hb ⊢
    rw [hb]

theorem writeChildrenAux_append (deflate : List Nat → List Nat)
    (cs : List GroupChild) (out : List Nat) :
    writeChildrenAux deflate cs out = out ++ writeChildrenAux deflate cs [] := by
  match cs with
  | [] => simp [writeChildrenAux]
  | c :: rest =>
    rw [writeChildrenAux, writeChildrenAux]
    rw [writeChildAux_append deflate c out,
      writeChildrenAux_append deflate rest (out ++ writeChildAux deflate c []),
      writeChildrenAux_append deflate rest (writeChildAux deflate c [])]
    simp

theorem writeChildAux_append (deflate : List Nat → List Nat) (c : GroupChild)
    (out : List Nat) :
    writeChildAux deflate c out = out ++ writeChildAux deflate c [] := by
  match c with
  | .group sub =>
    rw [writeChildAux, writeChildAux]
    exact writeGroupAux_append deflate sub out
  | .record r => simp [writeChildAux]
end

/-- The bytes `write_group` emits for a child on its own. -/
def childBytes (deflate : List Nat → List Nat) (c : GroupChild) : List Nat :=
  writeChildAux deflate c []

theorem writeChildrenAux_nil_length (deflate : List Nat → List Nat)
    (cs : List GroupChild) :
    (writeChildrenAux deflate cs []).length =
      (cs.map (fun c => (childBytes deflate c).length)).sum := by
  induction cs with
  | nil => simp [writeChildrenAux]
  | cons c rest ih =>
    rw [writeChildrenAux,
      writeChildrenAux_append deflate rest (writeChildAux deflate c [])]
    simp [childBytes, ih]

def Group.label : Group → List Nat
  | .mk _ l _ _ _ _ _ => l

theorem setBytes4_extract (X v : List Nat) (hv : v.length = 4)
    (hX : 4 ≤ X.length) :
    ((setBytes X 4 v).drop 4).take 4 = v := by
  unfold setBytes
  rw [List.append_assoc]
  have hdrop := List.drop_left (X.take 4) (v ++ X.drop (4 + v.length))
  rw [List.length_take, Nat.min_eq_left hX] at hdrop
  rw [hdrop]
  exact List.take_left' hv

theorem backpatchSize_extract (X : List Nat) (hX : 4 ≤ X.length) :
    ((backpatchSize 4 X).drop 4).take 4 =
      le32 ((X.length - 4 + 4) % 4294967296) := by
  unfold backpatchSize
  exact setBytes4_extract X _ (by simp [le32]) hX

/-- C8: for every group written by the serializer (with its 4-byte label), the
back-patched declared size field decodes to 24 (the group header) plus the sum
of the fully serialized byte lengths of all its children.  The statement is
universally quantified over groups, so it holds at every nesting level; by
`writeGroupAux_append`, a nested group contributes to its parent exactly its
standalone bytes `childBytes`. -/
theorem group_declared_size_eq_24_add_children (deflate : List Nat → List Nat)
    (g : Group) (hlabel : g.label.length = 4) :
    ((writeGroupAux deflate g []).drop 4).take 4 =
      le32 ((24 +
        (g.children.map (fun c => (childBytes deflate c).length)).sum) %
          4294967296) := by
  match g with
  | .mk _size label gt ts vc unk children =>
    have hlab : label.length = 4 := hlabel
    rw [writeGroupAux, writeChildrenAux_append deflate children]
    have hpos : (([] : List Nat) ++ grupTag).length = 4 := by simp [grupTag]
    rw [hpos, backpatchSize_extract _ (by simp [grupTag])]
    congr 1
    have hC := writeChildrenAux_nil_length deflate children
    simp only [List.length_append, List.length_nil, List.length_cons,
      List.length_take, grupTag, le16, le32, le32i, hlab, hC]
    simp [Group.children]
    omega

/-- Witness for `group_declared_size_eq_24_add_children`: a group holding one
26-byte record and one empty nested group (24 bytes) gets declared size
24 + 26 + 24 = 74, back-patched little-endian. -/
theorem group_declared_size_witness :
    (Group.mk 0 [87, 69, 65, 80] GroupType.normal 0 0 0
      [GroupChild.record ⟨[65, 66, 67, 68], 2, 0, 0, 0, 0, 0, 0, none,
        [9, 9], [], false⟩,
       GroupChild.group (Group.mk 0 [1, 2, 3, 4] GroupType.cell 0 0 0
        [])]).label.length = 4 ∧
    ((writeGroupAux (fun d => d)
      (Group.mk 0 [87, 69, 65, 80] GroupType.normal 0 0 0
        [GroupChild.record ⟨[65, 66, 67, 68], 2, 0, 0, 0, 0, 0, 0, none,
          [9, 9], [], false⟩,
         GroupChild.group (Group.mk 0 [1, 2, 3, 4] GroupType.cell 0 0 0
          [])]) []).drop 4).take 4 = [74, 0, 0, 0] := by
  refine ⟨by decide, ?_⟩
  rw [group_declared_size_eq_24_add_children (fun d => d) _ (by decide)]
  decide

/-- Loop body of `Plugin::eslify_formids` (src/plugin/esl.rs) over the
records collected in traversal order (`extract_group_records_mut`).  A record
is eligible when its FormID high byte is not an index into the master list;
eligible records get the low 12 bits replaced by the running counter (starting
at 0x800) and are marked modified; after the counter passes 0xFFF the function
returns an error immediately, leaving the remaining records untouched.
Returns the outcome, the final record states, and the final counter. -/
def eslifyGo (mastersLen : Nat) (cur : Nat) :
    List Record → Except String Unit × List Record × Nat
  | [] => (Except.ok (), [], cur)
  | r :: rs =>
    if mastersLen ≤ r.form_id >>> 24 then
      let r' := { r with
        form_id := (r.form_id &&& 0xFFFFF000) ||| (cur &&& 0xFFF),
        is_modified := true }
      let cur' := cur + 1
      if cur' > 0xFFF then
        (Except.error "ESL capacity exceeded", r' :: rs, cur')
      else
        let res := eslifyGo mastersLen cur' rs
        (res.1, r' :: res.2.1, res.2.2)
    else
      let res := eslifyGo mastersLen cur rs
      (res.1, r :: res.2.1, res.2.2)

/-- Shallow embedding of `Plugin::eslify_formids` (src/plugin/esl.rs): the
counter starts at 0x800 and the function returns its `Result` together with
the plugin's record list after the call (the Rust method mutates records in
place through `&mut` references, so the partially renumbered state survives an
early error return). -/
def eslifyFormids (mastersLen : Nat) (records : List Record) :
    Except String Unit × List Record :=
  let res := eslifyGo mastersLen 0x800 records
  (res.1, res.2.1)

/-- A record whose FormID high byte (0xFF) is out of range for an empty
master list, making it eligible for ESL renumbering. -/
def eligibleRecord : Record :=
  ⟨[84, 82, 69, 69], 0, 0, 0xFF000000, 0, 0, 0, 0, none, [], [], false⟩

deriving instance DecidableEq for Except

/-- C5 counterexample: renumbering a plugin of 2049 eligible records (empty
master list) does return an error, but only after 2048 records have already
had their FormIDs rewritten: the very first record ends up with FormID
0xFF000800 instead of its original 0xFF000000, so the claim that the failure
happens before any FormID mutation is false. -/
theorem eslify_2049_mutates_before_failing :
    (eslifyFormids 0 (List.replicate 2049 eligibleRecord)).1 =
      Except.error "ESL capacity exceeded" ∧
    eligibleRecord.form_id = 0xFF000000 ∧
    ((eslifyFormids 0 (List.replicate 2049 eligibleRecord)).2.head?.map
      (fun r => r.form_id)) = some 0xFF000800 := by
  refine ⟨?_, by decide, ?_⟩ <;> decide

/-- C5 amended: on 2049 eligible records `eslify_formids` returns an error,
raised while processing the 2048th eligible record and before the 2049th is
touched; the records already processed (the first 2048) remain renumbered and
marked modified in memory, and the function itself writes no output.  Here:
the error is returned, all of the first 2048 records are marked modified
(the 2048th carrying low bits 0xFFF), and the last record is untouched. -/
theorem eslify_2049_error_after_2048 :
    (eslifyFormids 0 (List.replicate 2049 eligibleRecord)).1 =
      Except.error "ESL capacity exceeded" ∧
    (((eslifyFormids 0 (List.replicate 2049 eligibleRecord)).2.take 2048).all
      (fun r => r.is_modified)) = true ∧
    (((eslifyFormids 0 (List.replicate 2049 eligibleRecord)).2.get?
      2047).map (fun r => r.form_id)) = some 0xFF000FFF ∧
    (((eslifyFormids 0 (List.replicate 2049 eligibleRecord)).2.get?
      2048).map (fun r => (r.form_id, r.is_modified))) =
      some (0xFF000000, false) := by
  refine ⟨by decide, by decide, by decide, by decide⟩

/-! ### Extraction and translation application

The extraction engine (src/plugin/strings.rs) and translation applier
(src/plugin/translate.rs) operate on parsed records whose types are compared
as strings.  External text machinery is abstracted as parameters shared by
both traversals exactly as the Rust code shares it: `content` stands for the
raw-string production of `extract_string_from_subrecord_with_index` (zstring
decoding via encoding_rs for normal plugins, string-table id lookup for
localized ones, including the id-0 early return), `valid` for
`is_valid_string` (src/utils.rs, which depends on Unicode character classes
of the Rust standard library), and `edidDecode` for the
`String::from_utf8_lossy` + `trim_end_matches` step of `get_editor_id`. -/

/-- A subrecord as the extraction layer sees it (string-typed tag). -/
structure SubrecordT where
  record_type : String
  size : Nat
  data : List Nat
  deriving Repr, DecidableEq

/-- A record as the extraction layer sees it. -/
structure RecordT where
  record_type : String
  form_id : Nat
  subrecords : List SubrecordT
  is_modified : Bool
  deriving Repr, DecidableEq

/-- `Record::get_editor_id` (src/record.rs): the decoded data of the first
`EDID` subrecord, if any; `edidDecode` stands for the lossy UTF-8 decode and
NUL-trimming. -/
def getEditorId (edidDecode : List Nat → String) (r : RecordT) :
    Option String :=
  (r.subrecords.find? (fun sr => sr.record_type == "EDID")).map
    (fun sr => edidDecode sr.data)

/-- One hexadecimal digit, uppercase (as Rust's `{:X}` prints it). -/
def hexDigit (n : Nat) : Char :=
  if n < 10 then Char.ofNat (48 + n) else Char.ofNat (55 + n)

/-- `format!("{:08X}", n)` for a `u32` value: eight uppercase hex digits. -/
def hex8 (n : Nat) : String :=
  String.mk [hexDigit (n / 268435456 % 16), hexDigit (n / 16777216 % 16),
    hexDigit (n / 1048576 % 16), hexDigit (n / 65536 % 16),
    hexDigit (n / 4096 % 16), hexDigit (n / 256 % 16),
    hexDigit (n / 16 % 16), hexDigit (n % 16)]

/-- `Plugin::format_form_id` (src/plugin.rs): `"{:08X}|{master}"` where the
master file is indexed by the FormID high byte, falling back to the plugin's
own name when the index is out of range. -/
def formatFormId (masters : List String) (pluginName : String) (formId : Nat) :
    String :=
  hex8 formId ++ "|" ++ masters.getD (formId >>> 24) pluginName

/-- `format_form_id_helper` (src/plugin/translate.rs): the applier's copy of
the FormID formatting logic. -/
def formatFormIdHelper (formId : Nat) (masters : List String)
    (pluginName : String) : String :=
  hex8 formId ++ "|" ++ masters.getD (formId >>> 24) pluginName

/-- Both FormID formatters are the same function, as the spec requires. -/
theorem formatFormIdHelper_eq_formatFormId (formId : Nat)
    (masters : List String) (pluginName : String) :
    formatFormIdHelper formId masters pluginName =
      formatFormId masters pluginName formId := rfl

/-- Shallow embedding of `ExtractedString` (src/string_types.rs). -/
structure ExtractedStringT where
  editor_id : Option String
  form_id : String
  original_text : String
  translated_text : Option String
  record_type : String
  subrecord_type : String
  index : Option Int
  deriving Repr, DecidableEq

/-- `ExtractedString::get_string_type`: `"{record_type} {subrecord_type}"`. -/
def ExtractedStringT.getStringType (e : ExtractedStringT) : String :=
  e.record_type ++ " " ++ e.subrecord_type

/-- `ExtractedString::get_unique_key` (src/string_types.rs): editor id,
formatted FormID, string type, and — when present — the occurrence index,
joined with `|`. -/
def ExtractedStringT.getUniqueKey (e : ExtractedStringT) : String :=
  match e.index with
  | some index =>
    (e.editor_id.getD "") ++ "|" ++ e.form_id ++ "|" ++ e.getStringType ++
      "|" ++ toString index
  | none => (e.editor_id.getD "") ++ "|" ++ e.form_id ++ "|" ++ e.getStringType

/-- `ExtractedString::get_text_to_apply`: translation if present, else the
original text. -/
def ExtractedStringT.getTextToApply (e : ExtractedStringT) : String :=
  e.translated_text.getD e.original_text

/-- Shallow embedding of `Plugin::extract_string_from_subrecord_with_index`
(src/plugin/strings.rs): produce the raw string (abstracted as `content`,
which also covers the localized id-0 and read-failure early returns), keep it
only if `is_valid_string` (abstracted as `valid`) accepts it, and build the
unit carrying the occurrence index. -/
def extractStringFromSubrecordWithIndex (content : SubrecordT → Option String)
    (valid : String → Bool) (sr : SubrecordT) (editorId : Option String)
    (formIdStr : String) (recordType : String) (index : Int) :
    Option ExtractedStringT :=
  match content sr with
  | none => none
  | some rawString =>
    if valid rawString then
      some ⟨editorId, formIdStr, rawString, none, recordType, sr.record_type,
        some index⟩
    else
      none

/-- The subrecord loop of `Plugin::extract_record_strings`
(src/plugin/strings.rs): one local counter, incremented on every subrecord
whose type is in the routed list, whether or not a unit is produced. -/
def extractRecordStringsGo (content : SubrecordT → Option String)
    (valid : String → Bool) (stringTypes : List String)
    (editorId : Option String) (formIdStr : String) (recordType : String) :
    List SubrecordT → Int → List ExtractedStringT
  | [], _ => []
  | sr :: rest, index =>
    if stringTypes.contains sr.record_type then
      match extractStringFromSubrecordWithIndex content valid sr editorId
          formIdStr recordType index with
      | some extracted =>
        extracted ::
          extractRecordStringsGo content valid stringTypes editorId formIdStr
            recordType rest (index + 1)
      | none =>
        extractRecordStringsGo content valid stringTypes editorId formIdStr
          recordType rest (index + 1)
    else
      extractRecordStringsGo content valid stringTypes editorId formIdStr
        recordType rest index

/-- Shallow embedding of `Plugin::extract_record_strings`
(src/plugin/strings.rs): consult the router for the record type; if routed,
compute editor id and formatted FormID and walk the subrecords. -/
def extractRecordStrings (router : String → Option (List String))
    (content : SubrecordT → Option String) (valid : String → Bool)
    (edidDecode : List Nat → String) (masters : List String)
    (pluginName : String) (r : RecordT) : List ExtractedStringT :=
  match router r.record_type with
  | none => []
  | some stringTypes =>
    extractRecordStringsGo content valid stringTypes
      (getEditorId edidDecode r) (formatFormId masters pluginName r.form_id)
      r.record_type r.subrecords 0

/-- The UTF-8 encoding of one Unicode scalar value (what Rust's `str` stores
per `char`). -/
def utf8EncodeChar (n : Nat) : List Nat :=
  if n < 128 then [n]
  else if n < 2048 then [192 + n / 64, 128 + n % 64]
  else if n < 65536 then
    [224 + n / 4096, 128 + n / 64 % 64, 128 + n % 64]
  else
    [240 + n / 262144, 128 + n / 4096 % 64, 128 + n / 64 % 64, 128 + n % 64]

/-- `str::as_bytes` / `String::len` view of a Lean string: its UTF-8 bytes. -/
def utf8Bytes (s : String) : List Nat :=
  (s.data.map (fun c => utf8EncodeChar c.toNat)).flatten

/-- `encode_string_with_encoding(text, "utf-8")` (src/plugin/translate.rs):
UTF-8 bytes of the text plus a NUL terminator. -/
def encodeStringUtf8 (text : String) : List Nat :=
  utf8Bytes text ++ [0]

/-- The key built by the applier at a routed occurrence
(src/plugin/translate.rs, `apply_translations_to_record`). -/
def applierKey (editorId : Option String) (formIdStr : String)
    (recordType : String) (subrecordType : String) (index : Int) : String :=
  (editorId.getD "") ++ "|" ++ formIdStr ++ "|" ++
    (recordType ++ " " ++ subrecordType) ++ "|" ++ toString index

/-- The subrecord loop of `apply_translations_to_record`
(src/plugin/translate.rs): same counter discipline as extraction; on a key
match with non-empty replacement text, the subrecord data is replaced by the
re-encoded text and its declared size updated.  Returns the new subrecords,
the applied count, and whether anything was modified. -/
def applyToSubrecordsGo (translations : String → Option ExtractedStringT)
    (stringTypes : List String) (editorId : Option String)
    (formIdStr : String) (recordType : String) :
    List SubrecordT → Int → List SubrecordT × Nat × Bool
  | [], _ => ([], 0, false)
  | sr :: rest, index =>
    if stringTypes.contains sr.record_type then
      let key := applierKey editorId formIdStr recordType sr.record_type index
      match translations key with
      | some translation =>
        let textToApply := translation.getTextToApply
        if textToApply ≠ "" then
          let encodedData := encodeStringUtf8 textToApply
          let sr' :=
            { sr with
              data := encodedData, size := encodedData.length % 65536 }
          let res := applyToSubrecordsGo translations stringTypes editorId
            formIdStr recordType rest (index + 1)
          (sr' :: res.1, res.2.1 + 1, true)
        else
          let res := applyToSubrecordsGo translations stringTypes editorId
            formIdStr recordType rest (index + 1)
          (sr :: res.1, res.2.1, res.2.2)
      | none =>
        let res := applyToSubrecordsGo translations stringTypes editorId
          formIdStr recordType rest (index + 1)
        (sr :: res.1, res.2.1, res.2.2)
    else
      let res := applyToSubrecordsGo translations stringTypes editorId
        formIdStr recordType rest index
      (sr :: res.1, res.2.1, res.2.2)

/-- Shallow embedding of `apply_translations_to_record`
(src/plugin/translate.rs): unrouted record types are untouched with count 0;
otherwise the subrecords are walked with the extraction-identical counter and
the record is marked modified if anything was applied. -/
def applyTranslationsToRecord (translations : String → Option ExtractedStringT)
    (router : String → Option (List String)) (edidDecode : List Nat → String)
    (masters : List String) (pluginName : String) (r : RecordT) :
    RecordT × Nat :=
  match router r.record_type with
  | none => (r, 0)
  | some stringTypes =>
    let res := applyToSubrecordsGo translations stringTypes
      (getEditorId edidDecode r)
      (formatFormIdHelper r.form_id masters pluginName) r.record_type
      r.subrecords 0
    ({ r with
        subrecords := res.1,
        is_modified := if res.2.2 then true else r.is_modified },
      res.2.1)

mutual
/-- A group as the translation layer sees it: only the children matter. -/
inductive GroupT where
  | mk (children : List GroupChildT) : GroupT

inductive GroupChildT where
  | group (g : GroupT) : GroupChildT
  | record (r : RecordT) : GroupChildT
end

mutual
/-- `apply_translations_to_group` (src/plugin/translate.rs). -/
def applyToGroup (translations : String → Option ExtractedStringT)
    (router : String → Option (List String)) (edidDecode : List Nat → String)
    (masters : List String) (pluginName : String) :
    GroupT → GroupT × Nat
  | .mk children =>
    let res := applyToChildren translations router edidDecode masters
      pluginName children
    (.mk res.1, res.2)

def applyToChildren (translations : String → Option ExtractedStringT)
    (router : String → Option (List String)) (edidDecode : List Nat → String)
    (masters : List String) (pluginName : String) :
    List GroupChildT → List GroupChildT × Nat
  | [] => ([], 0)
  | c :: rest =>
    let hd := applyToChild translations router edidDecode masters pluginName c
    let tl := applyToChildren translations router edidDecode masters
      pluginName rest
    (hd.1 :: tl.1, hd.2 + tl.2)

def applyToChild (translations : String → Option ExtractedStringT)
    (router : String → Option (List String)) (edidDecode : List Nat → String)
    (masters : List String) (pluginName : String) :
    GroupChildT → GroupChildT × Nat
  | .group g =>
    let res := applyToGroup translations router edidDecode masters pluginName g
    (.group res.1, res.2)
  | .record r =>
    let res := applyTranslationsToRecord translations router edidDecode
      masters pluginName r
    (.record res.1, res.2)
end

/-- The `for group in &mut self.groups` loop of
`Plugin::apply_translation_map` (src/plugin/translate.rs). -/
def applyToGroups (translations : String → Option ExtractedStringT)
    (router : String → Option (List String)) (edidDecode : List Nat → String)
    (masters : List String) (pluginName : String) :
    List GroupT → List GroupT × Nat
  | [] => ([], 0)
  | g :: rest =>
    let hd := applyToGroup translations router edidDecode masters pluginName g
    let tl := applyToGroups translations router edidDecode masters pluginName
      rest
    (hd.1 :: tl.1, hd.2 + tl.2)

/-- `Plugin::apply_translation_map` (src/plugin/translate.rs): fold the
applier over all top-level groups, summing applied counts; the function
always returns `Ok`, and a zero total is only reported as a warning (the
`Bool` component here), never an error. -/
def applyTranslationMap (translations : String → Option ExtractedStringT)
    (router : String → Option (List String)) (edidDecode : List Nat → String)
    (masters : List String) (pluginName : String) (groups : List GroupT) :
    (List GroupT × Nat) × Bool :=
  let res := applyToGroups translations router edidDecode masters pluginName
    groups
  (res, res.2 == 0)

theorem extractRecordStringsGo_eq_enumFrom
    (content : SubrecordT → Option String) (valid : String → Bool)
    (stringTypes : List String) (editorId : Option String)
    (formIdStr : String) (recordType : String) (srs : List SubrecordT)
    (n : Nat) :
    extractRecordStringsGo content valid stringTypes editorId formIdStr
        recordType srs (Int.ofNat n) =
      ((srs.filter
          (fun sr => stringTypes.contains sr.record_type)).enumFrom n).filterMap
        (fun p => extractStringFromSubrecordWithIndex content valid p.2
          editorId formIdStr recordType (Int.ofNat p.1)) := by
  induction srs generalizing n with
  | nil => simp [extractRecordStringsGo]
  | cons sr rest ih =>
    by_cases hc : stringTypes.contains sr.record_type
    · rw [extractRecordStringsGo, if_pos hc]
      simp only [List.filter_cons, hc, if_true]
      have hcast : (Int.ofNat n) + 1 = Int.ofNat (n + 1) := by
        simp [Int.ofNat_succ]
      rw [show ((sr :: rest.filter
          (fun sr => stringTypes.contains sr.record_type)).enumFrom n) =
        (n, sr) :: ((rest.filter
          (fun sr => stringTypes.contains sr.record_type)).enumFrom (n + 1))
        from rfl]
      rw [List.filterMap_cons]
      cases hx : extractStringFromSubrecordWithIndex content valid sr editorId
          formIdStr recordType (Int.ofNat n) with
      | none => rw [hcast, ih (n + 1)]
      | some u => rw [hcast, ih (n + 1)]
    · rw [extractRecordStringsGo, if_neg hc]
      simp only [List.filter_cons, hc, if_false]
      exact ih n

/-- C3: for every routed record, extraction walks the subrecords in order
with one zero-based counter: filtering the subrecords down to the routed
types and enumerating them from 0 yields exactly the occurrence indices the
engine passes to the per-subrecord extractor, which increments on every
routed-type subrecord whether or not a unit is produced (`filterMap` keeps
only produced units but the enumeration numbers all routed subrecords). -/
theorem extraction_assigns_sequential_indices
    (router : String → Option (List String))
    (content : SubrecordT → Option String) (valid : String → Bool)
    (edidDecode : List Nat → String) (masters : List String)
    (pluginName : String) (r : RecordT) (stringTypes : List String)
    (hroute : router r.record_type = some stringTypes) :
    extractRecordStrings router content valid edidDecode masters pluginName
        r =
      ((r.subrecords.filter
          (fun sr => stringTypes.contains sr.record_type)).enum).filterMap
        (fun p => extractStringFromSubrecordWithIndex content valid p.2
          (getEditorId edidDecode r)
          (formatFormId masters pluginName r.form_id) r.record_type
          (Int.ofNat p.1)) := by
  rw [extractRecordStrings, hroute]
  exact extractRecordStringsGo_eq_enumFrom content valid stringTypes
    (getEditorId edidDecode r) (formatFormId masters pluginName r.form_id)
    r.record_type r.subrecords 0

/-- Witness for `extraction_assigns_sequential_indices`: a `MESG` record with
routed subrecords `ITXT`, `FULL`, `ITXT` in file order, where the middle one
produces no unit (empty data), still numbers the occurrences 0, 1, 2 and
emits units with indices 0 and 2. -/
theorem extraction_assigns_sequential_indices_witness :
    ((fun rt => if rt = "MESG" then some ["ITXT", "FULL"] else none)
        "MESG" = some ["ITXT", "FULL"]) ∧
    extractRecordStrings
        (fun rt => if rt = "MESG" then some ["ITXT", "FULL"] else none)
        (fun sr => if sr.data.isEmpty then none else some "T")
        (fun s => s ≠ "") (fun _ => "Ed") ["Skyrim.esm"] "Test.esp"
        ⟨"MESG", 5, [⟨"EDID", 1, [1]⟩, ⟨"ITXT", 1, [1]⟩, ⟨"FULL", 0, []⟩,
          ⟨"ITXT", 1, [2]⟩, ⟨"XYZW", 1, [3]⟩], false⟩ =
      [⟨some "Ed", "00000005|Skyrim.esm", "T", none, "MESG", "ITXT", some 0⟩,
       ⟨some "Ed", "00000005|Skyrim.esm", "T", none, "MESG", "ITXT",
        some 2⟩] := by
  refine ⟨rfl, ?_⟩
  rw [extraction_assigns_sequential_indices _ _ _ _ _ _ _ ["ITXT", "FULL"]
    (by rfl)]
  decide

theorem applyToSubrecordsGo_count_pos
    (tr : String → Option ExtractedStringT) (stringTypes : List String)
    (edid : Option String) (fid : String) (rt : String)
    (srs : List SubrecordT) :
    ∀ (n i : Nat) (sr : SubrecordT) (t : ExtractedStringT),
    (srs.filter (fun s => stringTypes.contains s.record_type)).get? i =
      some sr →
    tr (applierKey edid fid rt sr.record_type (Int.ofNat (n + i))) = some t →
    t.getTextToApply ≠ "" →
    1 ≤ (applyToSubrecordsGo tr stringTypes edid fid rt srs
      (Int.ofNat n)).2.1 := by
  induction srs with
  | nil => intro n i sr t hocc; simp at hocc
  | cons sr0 rest ih =>
    intro n i sr t hocc hkey htext
    by_cases hc0 : stringTypes.contains sr0.record_type
    · simp only [List.filter_cons, hc0, if_true] at hocc
      have hcast : (Int.ofNat n) + 1 = Int.ofNat (n + 1) := by
        simp [Int.ofNat_succ]
      cases i with
      | zero =>
        rw [List.get?_cons_zero, Option.some_inj] at hocc
        subst hocc
        rw [Nat.add_zero] at hkey
        simp only [applyToSubrecordsGo, if_pos hc0, hkey, ne_eq, htext,
          not_false_eq_true, if_true]
        omega
      | succ j =>
        rw [List.get?_cons_succ] at hocc
        have hkey' : tr (applierKey edid fid rt sr.record_type
            (Int.ofNat ((n + 1) + j))) = some t := by
          rw [show (n + 1) + j = n + (j + 1) by omega]
          exact hkey
        have hih := ih (n + 1) j sr t hocc hkey' htext
        simp only [applyToSubrecordsGo, if_pos hc0, hcast]
        cases hm : tr (applierKey edid fid rt sr0.record_type (Int.ofNat n))
          with
        | none => simpa using hih
        | some tt =>
          by_cases he : tt.getTextToApply = ""
          · simp only [hm, he, ne_eq, not_true_eq_false, if_false]
            simpa using hih
          · simp only [hm, ne_eq, he, not_false_eq_true, if_true]
            omega
    · simp only [List.filter_cons, hc0, if_false] at hocc
      rw [applyToSubrecordsGo, if_neg hc0]
      exact ih n i sr t hocc hkey htext

/-- C2: the unique key of a translation unit extraction emits at routed
occurrence `i` equals the key the translation applier reconstructs at the
same occurrence of its own re-walk, so every extracted unit is matchable:
feeding the applier any translation map that holds that key with a non-empty
replacement text applies at least one translation to the record. -/
theorem extraction_and_applier_keys_agree
    (router : String → Option (List String))
    (content : SubrecordT → Option String) (valid : String → Bool)
    (edidDecode : List Nat → String) (masters : List String)
    (pluginName : String) (r : RecordT) (stringTypes : List String)
    (i : Nat) (sr : SubrecordT) (u : ExtractedStringT)
    (hroute : router r.record_type = some stringTypes)
    (hocc : (r.subrecords.filter
      (fun s => stringTypes.contains s.record_type)).get? i = some sr)
    (hunit : extractStringFromSubrecordWithIndex content valid sr
      (getEditorId edidDecode r) (formatFormId masters pluginName r.form_id)
      r.record_type (Int.ofNat i) = some u) :
    u.getUniqueKey = applierKey (getEditorId edidDecode r)
      (formatFormIdHelper r.form_id masters pluginName) r.record_type
      sr.record_type (Int.ofNat i) ∧
    u ∈ extractRecordStrings router content valid edidDecode masters
      pluginName r ∧
    ∀ (tr : String → Option ExtractedStringT) (t : ExtractedStringT),
      tr u.getUniqueKey = some t → t.getTextToApply ≠ "" →
      1 ≤ (applyTranslationsToRecord tr router edidDecode masters pluginName
        r).2 := by
  have hkeyeq : u.getUniqueKey = applierKey (getEditorId edidDecode r)
      (formatFormIdHelper r.form_id masters pluginName) r.record_type
      sr.record_type (Int.ofNat i) := by
    rw [extractStringFromSubrecordWithIndex] at hunit
    cases hcontent : content sr with
    | none => rw [hcontent] at hunit; exact absurd hunit (by simp)
    | some rawString =>
      rw [hcontent] at hunit
      by_cases hv : valid rawString = true
      · simp only [hv, if_true, Option.some_inj] at hunit
        subst hunit
        rfl
      · simp [hv] at hunit
  refine ⟨hkeyeq, ?_, ?_⟩
  · rw [extraction_assigns_sequential_indices router content valid edidDecode
      masters pluginName r stringTypes hroute]
    refine List.mem_filterMap.mpr ⟨(i, sr), ?_, hunit⟩
    rw [List.mk_mem_enum_iff_get?]
    exact hocc
  · intro tr t htr htext
    rw [applyTranslationsToRecord, hroute]
    simp only
    refine applyToSubrecordsGo_count_pos tr stringTypes
      (getEditorId edidDecode r)
      (formatFormIdHelper r.form_id masters pluginName) r.record_type
      r.subrecords 0 i sr t hocc ?_ htext
    rw [Nat.zero_add, ← hkeyeq]
    exact htr

/-- Witness for `extraction_and_applier_keys_agree`: the unit extracted at
occurrence 0 of the sample `MESG` record has key
`Ed|00000005|Skyrim.esm|MESG ITXT|0`, and applying a singleton translation
map holding exactly that key applies one translation. -/
theorem extraction_and_applier_keys_agree_witness :
    (⟨some "Ed", "00000005|Skyrim.esm", "T", none, "MESG", "ITXT",
      some 0⟩ : ExtractedStringT).getUniqueKey =
      "Ed|00000005|Skyrim.esm|MESG ITXT|0" ∧
    1 ≤ (applyTranslationsToRecord
        (fun k => if k = "Ed|00000005|Skyrim.esm|MESG ITXT|0" then
          some ⟨none, "", "T", some "X", "MESG", "ITXT", some 0⟩ else none)
        (fun rt => if rt = "MESG" then some ["ITXT", "FULL"] else none)
        (fun _ => "Ed") ["Skyrim.esm"] "Test.esp"
        ⟨"MESG", 5, [⟨"EDID", 1, [1]⟩, ⟨"ITXT", 1, [1]⟩, ⟨"FULL", 0, []⟩,
          ⟨"ITXT", 1, [2]⟩, ⟨"XYZW", 1, [3]⟩], false⟩).2 := by
  refine ⟨by decide, ?_⟩
  have h := extraction_and_applier_keys_agree
    (fun rt => if rt = "MESG" then some ["ITXT", "FULL"] else none)
    (fun sr => if sr.data.isEmpty then none else some "T")
    (fun s => s ≠ "") (fun _ => "Ed") ["Skyrim.esm"] "Test.esp"
    ⟨"MESG", 5, [⟨"EDID", 1, [1]⟩, ⟨"ITXT", 1, [1]⟩, ⟨"FULL", 0, []⟩,
      ⟨"ITXT", 1, [2]⟩, ⟨"XYZW", 1, [3]⟩], false⟩
    ["ITXT", "FULL"] 0 ⟨"ITXT", 1, [1]⟩
    ⟨some "Ed", "00000005|Skyrim.esm", "T", none, "MESG", "ITXT", some 0⟩
    (by rfl) (by decide) (by decide)
  exact h.2.2
    (fun k => if k = "Ed|00000005|Skyrim.esm|MESG ITXT|0" then
      some ⟨none, "", "T", some "X", "MESG", "ITXT", some 0⟩ else none)
    ⟨none, "", "T", some "X", "MESG", "ITXT", some 0⟩ (by decide) (by decide)

theorem applyToSubrecordsGo_noop (tr : String → Option ExtractedStringT)
    (stringTypes : List String) (edid : Option String) (fid : String)
    (rt : String) (srs : List SubrecordT) :
    ∀ n : Nat,
    (∀ (i : Nat) (sr : SubrecordT),
      (srs.filter (fun s => stringTypes.contains s.record_type)).get? i =
        some sr →
      tr (applierKey edid fid rt sr.record_type (Int.ofNat (n + i))) =
        none) →
    applyToSubrecordsGo tr stringTypes edid fid rt srs (Int.ofNat n) =
      (srs, 0, false) := by
  induction srs with
  | nil => intro n _; rfl
  | cons sr0 rest ih =>
    intro n habs
    by_cases hc0 : stringTypes.contains sr0.record_type
    · have hfc : List.filter (fun s => stringTypes.contains s.record_type)
          (sr0 :: rest) = sr0 ::
            List.filter (fun s => stringTypes.contains s.record_type) rest :=
        List.filter_cons_of_pos hc0
      have hkey0 : tr (applierKey edid fid rt sr0.record_type (Int.ofNat n)) =
          none := by
        have h0 := habs 0 sr0 (by rw [hfc]; rfl)
        rwa [Nat.add_zero] at h0
      have hcast : (Int.ofNat n) + 1 = Int.ofNat (n + 1) := by
        simp [Int.ofNat_succ]
      have hrest := ih (n + 1) (fun i sr hocc => by
        have hsh := habs (i + 1) sr (by
          rw [hfc, List.get?_cons_succ]; exact hocc)
        rwa [show n + (i + 1) = (n + 1) + i by omega] at hsh)
      simp only [applyToSubrecordsGo, if_pos hc0, hkey0, hcast, hrest]
    · have hfc : List.filter (fun s => stringTypes.contains s.record_type)
          (sr0 :: rest) =
            List.filter (fun s => stringTypes.contains s.record_type) rest :=
        List.filter_cons_of_neg hc0
      have hrest := ih n (fun i sr hocc => habs i sr (by
        rw [hfc]; exact hocc))
      simp only [applyToSubrecordsGo, if_neg hc0, hrest]

/-- The keys `apply_translations_to_record` probes while re-walking a record,
in walk order (src/plugin/translate.rs). -/
def applierKeysOfRecord (router : String → Option (List String))
    (edidDecode : List Nat → String) (masters : List String)
    (pluginName : String) (r : RecordT) : List String :=
  match router r.record_type with
  | none => []
  | some stringTypes =>
    ((r.subrecords.filter
        (fun s => stringTypes.contains s.record_type)).enum).map
      (fun p => applierKey (getEditorId edidDecode r)
        (formatFormIdHelper r.form_id masters pluginName) r.record_type
        p.2.record_type (Int.ofNat p.1))

theorem applyTranslationsToRecord_noop
    (tr : String → Option ExtractedStringT)
    (router : String → Option (List String)) (edidDecode : List Nat → String)
    (masters : List String) (pluginName : String) (r : RecordT)
    (habs : ∀ k ∈ applierKeysOfRecord router edidDecode masters pluginName r,
      tr k = none) :
    applyTranslationsToRecord tr router edidDecode masters pluginName r =
      (r, 0) := by
  cases hrt : router r.record_type with
  | none => rw [applyTranslationsToRecord, hrt]
  | some stringTypes =>
    rw [applyTranslationsToRecord, hrt]
    have hgo : applyToSubrecordsGo tr stringTypes
        (getEditorId edidDecode r)
        (formatFormIdHelper r.form_id masters pluginName) r.record_type
        r.subrecords (0 : Int) = (r.subrecords, 0, false) :=
      applyToSubrecordsGo_noop tr stringTypes
      (getEditorId edidDecode r)
      (formatFormIdHelper r.form_id masters pluginName) r.record_type
      r.subrecords 0 (fun i sr hocc => by
        refine habs _ ?_
        rw [applierKeysOfRecord, hrt]
        rw [Nat.zero_add]
        refine List.mem_map.mpr ⟨(i, sr), ?_, rfl⟩
        rw [List.mk_mem_enum_iff_get?]
        exact hocc)
    simp only [hgo]
    rfl

mutual
/-- All keys the applier probes in a group (src/plugin/translate.rs,
`apply_translations_to_group`). -/
def applierKeysOfGroup (router : String → Option (List String))
    (edidDecode : List Nat → String) (masters : List String)
    (pluginName : String) : GroupT → List String
  | .mk children =>
    applierKeysOfChildren router edidDecode masters pluginName children

def applierKeysOfChildren (router : String → Option (List String))
    (edidDecode : List Nat → String) (masters : List String)
    (pluginName : String) : List GroupChildT → List String
  | [] => []
  | c :: rest =>
    applierKeysOfChild router edidDecode masters pluginName c ++
      applierKeysOfChildren router edidDecode masters pluginName rest

def applierKeysOfChild (router : String → Option (List String))
    (edidDecode : List Nat → String) (masters : List String)
    (pluginName : String) : GroupChildT → List String
  | .group g => applierKeysOfGroup router edidDecode masters pluginName g
  | .record r => applierKeysOfRecord router edidDecode masters pluginName r
end

mutual
theorem applyToGroup_noop (tr : String → Option ExtractedStringT)
    (router : String → Option (List String)) (edidDecode : List Nat → String)
    (masters : List String) (pluginName : String) (g : GroupT)
    (habs : ∀ k ∈ applierKeysOfGroup router edidDecode masters pluginName g,
      tr k = none) :
    applyToGroup tr router edidDecode masters pluginName g = (g, 0) := by
  match g with
  | .mk children =>
    rw [applyToGroup]
    rw [applyToChildren_noop tr router edidDecode masters pluginName children
      (by
        intro k hk
        exact habs k (by rwa [applierKeysOfGroup]))]

theorem applyToChildren_noop (tr : String → Option ExtractedStringT)
    (router : String → Option (List String)) (edidDecode : List Nat → String)
    (masters : List String) (pluginName : String) (cs : List GroupChildT)
    (habs : ∀ k ∈ applierKeysOfChildren router edidDecode masters pluginName
      cs, tr k = none) :
    applyToChildren tr router edidDecode masters pluginName cs = (cs, 0) := by
  match cs with
  | [] => rfl
  | c :: rest =>
    rw [applyToChildren]
    rw [applyToChild_noop tr router edidDecode masters pluginName c (by
      intro k hk
      refine habs k ?_
      rw [applierKeysOfChildren]
      exact List.mem_append_left _ hk)]
    rw [applyToChildren_noop tr router edidDecode masters pluginName rest (by
      intro k hk
      refine habs k ?_
      rw [applierKeysOfChildren]
      exact List.mem_append_right _ hk)]
    rfl

theorem applyToChild_noop (tr : String → Option ExtractedStringT)
    (router : String → Option (List String)) (edidDecode : List Nat → String)
    (masters : List String) (pluginName : String) (c : GroupChildT)
    (habs : ∀ k ∈ applierKeysOfChild router edidDecode masters pluginName c,
      tr k = none) :
    applyToChild tr router edidDecode masters pluginName c = (c, 0) := by
  match c with
  | .group g =>
    rw [applyToChild]
    rw [applyToGroup_noop tr router edidDecode masters pluginName g (by
      intro k hk
      exact habs k (by rwa [applierKeysOfChild]))]
  | .record r =>
    rw [applyToChild]
    rw [applyTranslationsToRecord_noop tr router edidDecode masters pluginName
      r (by
        intro k hk
        exact habs k (by rwa [applierKeysOfChild]))]
end

/-- All keys the applier probes across the plugin's top-level groups. -/
def applierKeysOfGroups (router : String → Option (List String))
    (edidDecode : List Nat → String) (masters : List String)
    (pluginName : String) (groups : List GroupT) : List String :=
  (groups.map
    (applierKeysOfGroup router edidDecode masters pluginName)).join

/-- C9: applying a translation map whose keys are all absent from the
container changes nothing and raises nothing: every group (hence every
subrecord payload, declared size, and modified flag) is returned unchanged,
the applied count is 0, and the zero count is reported as the warning flag of
`apply_translation_map`, which is total (never an error). -/
theorem apply_unknown_keys_changes_nothing
    (tr : String → Option ExtractedStringT)
    (router : String → Option (List String)) (edidDecode : List Nat → String)
    (masters : List String) (pluginName : String) (groups : List GroupT)
    (habs : ∀ k ∈ applierKeysOfGroups router edidDecode masters pluginName
      groups, tr k = none) :
    applyTranslationMap tr router edidDecode masters pluginName groups =
      ((groups, 0), true) := by
  have hgo : applyToGroups tr router edidDecode masters pluginName groups =
      (groups, 0) := by
    induction groups with
    | nil => rfl
    | cons g rest ih =>
      rw [applyToGroups]
      rw [applyToGroup_noop tr router edidDecode masters pluginName g (by
        intro k hk
        refine habs k ?_
        simp only [applierKeysOfGroups, List.map_cons, List.join]
        exact List.mem_append_left _ hk)]
      rw [ih (by
        intro k hk
        refine habs k ?_
        simp only [applierKeysOfGroups, List.map_cons, List.join] at hk ⊢
        exact List.mem_append_right _ hk)]
      rfl
  rw [applyTranslationMap, hgo]
  rfl

/-- Witness for `apply_unknown_keys_changes_nothing`: the all-miss map
(`fun _ => none`) applied to a one-group plugin holding the sample `MESG`
record leaves the group tree unchanged with 0 applied and the warning set. -/
theorem apply_unknown_keys_changes_nothing_witness :
    applyTranslationMap (fun _ => none)
        (fun rt => if rt = "MESG" then some ["ITXT", "FULL"] else none)
        (fun _ => "Ed") ["Skyrim.esm"] "Test.esp"
        [.mk [.record ⟨"MESG", 5, [⟨"EDID", 1, [1]⟩, ⟨"ITXT", 1, [1]⟩,
          ⟨"FULL", 0, []⟩, ⟨"ITXT", 1, [2]⟩, ⟨"XYZW", 1, [3]⟩], false⟩]] =
      (([.mk [.record ⟨"MESG", 5, [⟨"EDID", 1, [1]⟩, ⟨"ITXT", 1, [1]⟩,
        ⟨"FULL", 0, []⟩, ⟨"ITXT", 1, [2]⟩, ⟨"XYZW", 1, [3]⟩], false⟩]], 0),
        true) :=
  apply_unknown_keys_changes_nothing (fun _ => none) _ _ _ _ _
    (fun _ _ => rfl)

/-! ### String-table files

The string-table codec (src/string_file/file.rs, src/string_file/mod.rs)
stores text as UTF-8; `String::from_utf8_lossy` is modelled by a strict
UTF-8 decoder with U+FFFD substitution on invalid bytes. -/

/-- One step of strict UTF-8 decoding: at most one scalar value is consumed,
with continuation-byte, overlong-encoding, surrogate and range checks as in
Rust's `core::str` validation. -/
def utf8DecodeOne : List Nat → Option (Char × List Nat)
  | [] => none
  | b0 :: rest =>
    if b0 < 128 then some (Char.ofNat b0, rest)
    else if b0 < 192 then none
    else if b0 < 224 then
      match rest with
      | b1 :: rest2 =>
        if 128 ≤ b1 ∧ b1 < 192 then
          let n := (b0 - 192) * 64 + (b1 - 128)
          if 128 ≤ n then some (Char.ofNat n, rest2) else none
        else none
      | [] => none
    else if b0 < 240 then
      match rest with
      | b1 :: b2 :: rest3 =>
        if (128 ≤ b1 ∧ b1 < 192) ∧ (128 ≤ b2 ∧ b2 < 192) then
          let n := (b0 - 224) * 4096 + (b1 - 128) * 64 + (b2 - 128)
          if 2048 ≤ n ∧ ¬(55296 ≤ n ∧ n < 57344) then
            some (Char.ofNat n, rest3)
          else none
        else none
      | _ => none
    else if b0 < 248 then
      match rest with
      | b1 :: b2 :: b3 :: rest4 =>
        if (128 ≤ b1 ∧ b1 < 192) ∧ (128 ≤ b2 ∧ b2 < 192) ∧
            (128 ≤ b3 ∧ b3 < 192) then
          let n := (b0 - 240) * 262144 + (b1 - 128) * 4096 +
            (b2 - 128) * 64 + (b3 - 128)
          if 65536 ≤ n ∧ n < 1114112 then some (Char.ofNat n, rest4)
          else none
        else none
      | _ => none
    else none

/-- The character loop of `String::from_utf8_lossy`: valid sequences decode,
an invalid byte becomes U+FFFD and one byte is skipped.  The fuel equals the
byte count; each step consumes at least one byte, so it never runs out. -/
def utf8LossyGo (fuel : Nat) (bytes : List Nat) : List Char :=
  match bytes with
  | [] => []
  | b :: rest =>
    match fuel, utf8DecodeOne (b :: rest) with
    | f + 1, some (c, rest') => c :: utf8LossyGo f rest'
    | f + 1, none => Char.ofNat 65533 :: utf8LossyGo f rest
    | 0, _ => []

/-- `String::from_utf8_lossy` on a byte list. -/
def fromUtf8Lossy (bytes : List Nat) : String :=
  String.mk (utf8LossyGo bytes.length bytes)

theorem utf8EncodeChar_length_pos (n : Nat) :
    1 ≤ (utf8EncodeChar n).length := by
  rw [utf8EncodeChar]
  split
  · simp
  split
  · simp
  split
  · simp
  · simp

/-- Strict decoding undoes the encoder for any Lean `Char` (every `Char` is a
valid Unicode scalar value). -/
theorem utf8DecodeOne_encode (c : Char) (rest : List Nat) :
    utf8DecodeOne (utf8EncodeChar c.toNat ++ rest) = some (c, rest) := by
  have hval : c.toNat < 1114112 ∧ ¬(55296 ≤ c.toNat ∧ c.toNat < 57344) := by
    rcases c.valid with h | h
    · have h1 : c.val.toNat < 55296 := h
      constructor
      · simp only [Char.toNat]; omega
      · intro hc
        simp only [Char.toNat] at hc
        omega
    · obtain ⟨h1, h2⟩ := h
      have e1 : 57343 < c.val.toNat := h1
      have e2 : c.val.toNat < 1114112 := h2
      constructor
      · simpa [Char.toNat] using e2
      · intro hc
        simp only [Char.toNat] at hc
        omega
  obtain ⟨hlt, hsur⟩ := hval
  have hofn := Char.ofNat_toNat c
  set n := c.toNat with hn
  rw [utf8EncodeChar]
  by_cases h1 : n < 128
  · rw [if_pos h1]
    simp only [List.cons_append, List.nil_append, utf8DecodeOne, if_pos h1,
      hofn]
  · rw [if_neg h1]
    by_cases h2 : n < 2048
    · rw [if_pos h2]
      have e0 : ¬(192 + n / 64 < 128) := by omega
      have e1 : ¬(192 + n / 64 < 192) := by omega
      have e2 : 192 + n / 64 < 224 := by omega
      have e3 : 128 ≤ 128 + n % 64 ∧ 128 + n % 64 < 192 := by omega
      have e4 : (192 + n / 64 - 192) * 64 + (128 + n % 64 - 128) = n := by
        omega
      simp only [List.cons_append, List.nil_append, utf8DecodeOne,
        if_neg e0, if_neg e1, if_pos e2, if_pos e3, e4]
      rw [if_pos (by omega), hofn]
    · rw [if_neg h2]
      by_cases h3 : n < 65536
      · rw [if_pos h3]
        have e0 : ¬(224 + n / 4096 < 128) := by omega
        have e1 : ¬(224 + n / 4096 < 192) := by omega
        have e2 : ¬(224 + n / 4096 < 224) := by omega
        have e3 : 224 + n / 4096 < 240 := by omega
        have e4 : (128 ≤ 128 + n / 64 % 64 ∧ 128 + n / 64 % 64 < 192) ∧
            (128 ≤ 128 + n % 64 ∧ 128 + n % 64 < 192) := by omega
        have e5 : (224 + n / 4096 - 224) * 4096 +
            (128 + n / 64 % 64 - 128) * 64 + (128 + n % 64 - 128) = n := by
          omega
        simp only [List.cons_append, List.nil_append, utf8DecodeOne,
          if_neg e0, if_neg e1, if_neg e2, if_pos e3, if_pos e4, e5]
        rw [if_pos (by omega), hofn]
      · rw [if_neg h3]
        have e0 : ¬(240 + n / 262144 < 128) := by omega
        have e1 : ¬(240 + n / 262144 < 192) := by omega
        have e2 : ¬(240 + n / 262144 < 224) := by omega
        have e3 : ¬(240 + n / 262144 < 240) := by omega
        have e4 : 240 + n / 262144 < 248 := by omega
        have e5 : (128 ≤ 128 + n / 4096 % 64 ∧ 128 + n / 4096 % 64 < 192) ∧
            (128 ≤ 128 + n / 64 % 64 ∧ 128 + n / 64 % 64 < 192) ∧
            (128 ≤ 128 + n % 64 ∧ 128 + n % 64 < 192) := by omega
        have e6 : (240 + n / 262144 - 240) * 262144 +
            (128 + n / 4096 % 64 - 128) * 4096 +
            (128 + n / 64 % 64 - 128) * 64 + (128 + n % 64 - 128) = n := by
          omega
        simp only [List.cons_append, List.nil_append, utf8DecodeOne,
          if_neg e0, if_neg e1, if_neg e2, if_neg e3, if_pos e4, if_pos e5,
          e6]
        rw [if_pos (by omega), hofn]

theorem utf8LossyGo_encode (cs : List Char) :
    ∀ fuel : Nat,
    ((cs.map (fun c => utf8EncodeChar c.toNat)).flatten).length ≤ fuel →
    utf8LossyGo fuel ((cs.map (fun c => utf8EncodeChar c.toNat)).flatten) =
      cs := by
  induction cs with
  | nil => intro fuel _; cases fuel <;> rfl
  | cons c cs' ih =>
    intro fuel hfuel
    simp only [List.map_cons, List.flatten_cons] at hfuel ⊢
    obtain ⟨b, bs, hbe⟩ : ∃ b bs, utf8EncodeChar c.toNat = b :: bs := by
      cases h : utf8EncodeChar c.toNat with
      | nil =>
        have := utf8EncodeChar_length_pos c.toNat
        rw [h] at this
        simp at this
      | cons b bs => exact ⟨b, bs, rfl⟩
    have hdec := utf8DecodeOne_encode c
      ((cs'.map (fun c => utf8EncodeChar c.toNat)).flatten)
    rw [hbe] at hdec hfuel ⊢
    rw [List.cons_append]
    simp only [List.length_append, List.length_cons] at hfuel
    cases fuel with
    | zero => omega
    | succ f =>
      have hih := ih f (by omega)
      rw [utf8LossyGo.eq_def]
      split
      · rename_i heq
        cases heq
      · rename_i b2 rest2 heq
        injection heq with h1 h2
        subst h1
        subst h2
        split
        · rename_i f2 c2 rest2 hfe hsome
          have hinj := hdec.symm.trans hsome
          injection hfe with hf2
          subst hf2
          injection hinj with hcr
          injection hcr with hc hrest
          subst hc
          subst hrest
          rw [hih]
        · rename_i f2 hfe hnone
          cases hdec.symm.trans hnone
        · omega

/-- `String::from_utf8_lossy` is the identity on the UTF-8 bytes of a
string. -/
theorem fromUtf8Lossy_utf8Bytes (s : String) :
    fromUtf8Lossy (utf8Bytes s) = s := by
  rw [fromUtf8Lossy, utf8Bytes, utf8LossyGo_encode s.data _ (le_refl _)]

/-- Shallow embedding of `StringFileType` (src/string_file/mod.rs). -/
inductive StringFileType where
  | dlstrings
  | ilstrings
  | strings
  deriving Repr, DecidableEq

/-- `StringFileType::has_length_prefix`: DLSTRINGS and ILSTRINGS carry a
4-byte length prefix. -/
def StringFileType.hasLengthPrefix : StringFileType → Bool
  | .dlstrings => true
  | .ilstrings => true
  | .strings => false

/-- Shallow embedding of `StringEntry` (src/string_file/mod.rs). -/
structure StringEntry where
  id : Nat
  directory_address : Nat
  relative_offset : Nat
  absolute_offset : Nat
  length : Option Nat
  content : String
  raw_data : List Nat
  deriving Repr, DecidableEq

/-- `StringEntry::get_total_size` (src/string_file/mod.rs): computed from the
current content text (`content.len()` as a `u32`), never from the cached
`raw_data` or `length`; plus length prefix and NUL terminator. -/
def StringEntry.getTotalSize (e : StringEntry) (ft : StringFileType) : Nat :=
  let contentSize := (utf8Bytes e.content).length % 4294967296
  if ft.hasLengthPrefix then (4 + contentSize + 1) % 4294967296
  else (contentSize + 1) % 4294967296

/-- A string table's entry map, as the association of its key-value pairs
(Rust `HashMap<u32, StringEntry>`); map semantics require distinct keys. -/
def EntryMap := List (Nat × StringEntry)

/-- `self.entries[id]` during rebuild: the id always comes from the map's own
key set, so the default entry is never reached. -/
def lookupEntry (entries : List (Nat × StringEntry)) (id : Nat) :
    StringEntry :=
  (((entries.find? (fun p => p.1 == id)).map Prod.snd)).getD
    ⟨0, 0, 0, 0, none, "", []⟩

/-- The blob bytes `rebuild` writes for one entry: optional 4-byte length
prefix (`content.len()` as `u32`), the UTF-8 content bytes, and a NUL. -/
def blobEntry (e : StringEntry) (ft : StringFileType) : List Nat :=
  (if ft.hasLengthPrefix then
    le32 ((utf8Bytes e.content).length % 4294967296)
  else []) ++ utf8Bytes e.content ++ [0]

/-- The offset-accumulation loop of `StringFile::rebuild`
(src/string_file/file.rs): directory entries `(id, offset)` for the sorted
ids, each offset the running `u32` sum of the previous entries' total
sizes. -/
def rebuildDirectoryGo (entries : List (Nat × StringEntry))
    (ft : StringFileType) : List Nat → Nat → List (Nat × Nat)
  | [], _ => []
  | id :: rest, offset =>
    (id, offset) ::
      rebuildDirectoryGo entries ft rest
        ((offset + (lookupEntry entries id).getTotalSize ft) % 4294967296)

/-- The directory `StringFile::rebuild` emits: ids sorted ascending with
accumulated offsets. -/
def rebuildDirectory (entries : List (Nat × StringEntry))
    (ft : StringFileType) : List (Nat × Nat) :=
  rebuildDirectoryGo entries ft
    (List.insertionSort (· ≤ ·) (entries.map Prod.fst)) 0

/-- Shallow embedding of `StringFile::rebuild` (src/string_file/file.rs):
8-byte header (entry count, total data size), directory entries for the
ids sorted ascending, then the data blob in the same order. -/
def rebuild (entries : List (Nat × StringEntry)) (ft : StringFileType) :
    List Nat :=
  let count := entries.length % 4294967296
  let dataSize :=
    ((entries.map (fun p => p.2.getTotalSize ft)).sum) % 4294967296
  let ids := List.insertionSort (· ≤ ·) (entries.map Prod.fst)
  le32 count ++ le32 dataSize ++
    ((rebuildDirectory entries ft).map
      (fun p => le32 p.1 ++ le32 p.2)).flatten ++
    (ids.map (fun id => blobEntry (lookupEntry entries id) ft)).flatten

/-- `read_u32` at an absolute position of the file (via `Cursor::seek`);
fails when fewer than four bytes remain. -/
def readU32At (data : List Nat) (pos : Nat) : Option Nat :=
  match data.drop pos with
  | b0 :: b1 :: b2 :: b3 :: _ => some (leVal4 b0 b1 b2 b3)
  | _ => none

/-- Shallow embedding of `StringFile::read_string_data`
(src/string_file/file.rs).  With a length prefix: read the 32-bit length,
bounds-check, truncate at an interior NUL, lossy-decode; raw data includes
the length field.  Without: scan to the NUL terminator (its absence is a
fatal error); raw data includes the terminator. -/
def readStringData (data : List Nat) (pos : Nat) (ft : StringFileType) :
    Option (String × List Nat × Option Nat) :=
  if ft.hasLengthPrefix then
    match readU32At data pos with
    | none => none
    | some length =>
      let contentStart := pos + 4
      if data.length < contentStart + length then none
      else
        let stringBytes := (data.drop contentStart).take length
        let actualStringBytes :=
          match stringBytes.findIdx? (· == 0) with
          | some nullPos => stringBytes.take nullPos
          | none => stringBytes
        some (fromUtf8Lossy actualStringBytes,
          (data.drop pos).take (4 + length), some length)
  else
    let remainingData := data.drop pos
    match remainingData.findIdx? (· == 0) with
    | none => none
    | some nullPos =>
      some (fromUtf8Lossy (remainingData.take nullPos),
        remainingData.take (nullPos + 1), none)

/-- `HashMap::insert`: overwrite the value when the key exists, else add the
pair. -/
def hmInsert (m : List (Nat × StringEntry)) (k : Nat) (v : StringEntry) :
    List (Nat × StringEntry) :=
  if m.any (fun p => p.1 == k) then
    m.map (fun p => if p.1 == k then (k, v) else p)
  else m ++ [(k, v)]

/-- The directory loop of `StringFile::parse_bytes`
(src/string_file/file.rs), iterating `i` over the declared count: read id
and relative offset at the directory address; an absolute offset outside the
file data skips (and counts) the entry; otherwise `read_string_data` must
succeed (its failure fails the whole file) and the entry is inserted. -/
def parseEntriesGo (data : List Nat) (ft : StringFileType)
    (stringDataStart : Nat) :
    Nat → Nat → List (Nat × StringEntry) → Nat →
      Option (List (Nat × StringEntry) × Nat)
  | _, 0, acc, skipped => some (acc, skipped)
  | i, rem + 1, acc, skipped =>
    let directoryAddress := 8 + (i * 8) % 4294967296
    match readU32At data directoryAddress,
        readU32At data (directoryAddress + 4) with
    | some stringId, some relativeOffset =>
      let absoluteOffset := stringDataStart + relativeOffset
      if data.length ≤ absoluteOffset then
        parseEntriesGo data ft stringDataStart (i + 1) rem acc (skipped + 1)
      else
        match readStringData data absoluteOffset ft with
        | none => none
        | some (content, rawData, length) =>
          parseEntriesGo data ft stringDataStart (i + 1) rem
            (hmInsert acc stringId
              ⟨stringId, directoryAddress, relativeOffset, absoluteOffset,
                length, content, rawData⟩)
            skipped
    | _, _ => none

/-- Shallow embedding of `StringFile::parse_bytes`
(src/string_file/file.rs): an 8-byte header (count, data size), then the
directory loop.  Returns the entry map together with the skipped-entry
count the Rust code reports. -/
def parseBytes (data : List Nat) (ft : StringFileType) :
    Option (List (Nat × StringEntry) × Nat) :=
  if data.length < 8 then none
  else
    match readU32At data 0, readU32At data 4 with
    | some stringCount, some _dataSize =>
      if stringCount = 0 then some ([], 0)
      else
        parseEntriesGo data ft (8 + (stringCount * 8) % 4294967296) 0
          stringCount [] 0
    | _, _ => none

theorem readU32At_exact (a b : List Nat) (x : Nat) (hx : x < 4294967296) :
    readU32At (a ++ (le32 x ++ b)) a.length = some x := by
  rw [readU32At]
  rw [show a.length = a.length + 0 by omega, List.drop_append 0]
  simp only [List.drop_zero, le32, List.cons_append, Option.some_inj]
  rw [leVal4]
  omega

theorem findIdx?_zero_none (u : List Nat) (h : 0 ∉ u) :
    ∀ s, u.findIdx? (· == 0) s = none := by
  induction u with
  | nil => intro s; rfl
  | cons a as ih =>
    intro s
    simp only [List.mem_cons, not_or] at h
    rw [List.findIdx?_cons]
    have ha : (a == 0) = false := by
      simp only [beq_eq_false_iff_ne, ne_eq]
      exact fun he => h.1 (by omega)
    rw [ha]
    simp only [Bool.false_eq_true, if_false]
    exact ih h.2 (s + 1)

theorem findIdx?_zero_append (u r : List Nat) (h : 0 ∉ u) :
    ∀ s, (u ++ 0 :: r).findIdx? (· == 0) s = some (s + u.length) := by
  induction u with
  | nil =>
    intro s
    simp [List.findIdx?_cons]
  | cons a as ih =>
    intro s
    simp only [List.mem_cons, not_or] at h
    rw [List.cons_append, List.findIdx?_cons]
    have ha : (a == 0) = false := by
      simp only [beq_eq_false_iff_ne, ne_eq]
      exact fun he => h.1 (by omega)
    rw [ha]
    simp only [Bool.false_eq_true, if_false]
    rw [ih h.2 (s + 1)]
    simp only [List.length_cons, Option.some_inj]
    omega

theorem flatten_drop_sum (ls : List (List Nat)) :
    ∀ j, (ls.flatten).drop (((ls.take j).map List.length).sum) =
      (ls.drop j).flatten := by
  induction ls with
  | nil => intro j; simp
  | cons l ls' ih =>
    intro j
    cases j with
    | zero => simp
    | succ j' =>
      simp only [List.take_succ_cons, List.map_cons, List.sum_cons,
        List.flatten_cons, List.drop_succ_cons]
      rw [List.drop_append, ih j']

theorem le32_length (x : Nat) : (le32 x).length = 4 := rfl

theorem readU32At_dir (pairs : List (Nat × Nat)) :
    ∀ (H B : List Nat) (j : Nat) (p : Nat × Nat),
    (∀ q ∈ pairs, q.1 < 4294967296 ∧ q.2 < 4294967296) →
    pairs.get? j = some p →
    readU32At
        (H ++ ((pairs.map (fun q => le32 q.1 ++ le32 q.2)).flatten ++ B))
        (H.length + 8 * j) = some p.1 ∧
    readU32At
        (H ++ ((pairs.map (fun q => le32 q.1 ++ le32 q.2)).flatten ++ B))
        (H.length + 8 * j + 4) = some p.2 := by
  induction pairs with
  | nil => intro H B j p _ hj; simp at hj
  | cons q rest ih =>
    intro H B j p hvals hj
    have hq := hvals q (by simp)
    cases j with
    | zero =>
      rw [List.get?_cons_zero, Option.some_inj] at hj
      subst hj
      constructor
      · have h := readU32At_exact H
          (le32 q.2 ++ ((rest.map (fun q => le32 q.1 ++ le32 q.2)).flatten ++
            B)) q.1 hq.1
        rw [Nat.mul_zero, Nat.add_zero]
        simpa [List.append_assoc] using h
      · have h := readU32At_exact (H ++ le32 q.1)
          ((rest.map (fun q => le32 q.1 ++ le32 q.2)).flatten ++ B) q.2 hq.2
        rw [Nat.mul_zero, Nat.add_zero]
        simpa [List.append_assoc, le32_length] using h
    | succ j' =>
      rw [List.get?_cons_succ] at hj
      have h := ih (H ++ (le32 q.1 ++ le32 q.2)) B j' p
        (fun r hr => hvals r (by simp [hr])) hj
      have hlen : (H ++ (le32 q.1 ++ le32 q.2)).length = H.length + 8 := by
        simp [le32_length]
      rw [hlen] at h
      constructor
      · have h1 := h.1
        rw [show H.length + 8 + 8 * j' = H.length + 8 * (j' + 1) by omega]
          at h1
        simpa [List.append_assoc] using h1
      · have h2 := h.2
        rw [show H.length + 8 + 8 * j' + 4 = H.length + 8 * (j' + 1) + 4 by
          omega] at h2
        simpa [List.append_assoc] using h2

theorem readStringData_blob_strings (A R : List Nat) (e : StringEntry)
    (h0 : 0 ∉ utf8Bytes e.content) :
    readStringData (A ++ (blobEntry e .strings ++ R)) A.length .strings =
      some (e.content, utf8Bytes e.content ++ [0], none) := by
  rw [readStringData]
  simp only [StringFileType.hasLengthPrefix, Bool.false_eq_true, if_false]
  have hdrop : (A ++ (blobEntry e .strings ++ R)).drop A.length =
      utf8Bytes e.content ++ (0 :: R) := by
    rw [show A.length = A.length + 0 by omega, List.drop_append 0]
    simp [blobEntry, StringFileType.hasLengthPrefix]
  rw [hdrop, findIdx?_zero_append _ _ h0 0]
  simp only [Nat.zero_add, Option.some_inj]
  rw [List.take_left, show (utf8Bytes e.content).length + 1 =
    (utf8Bytes e.content).length + 1 by rfl]
  have htake : (utf8Bytes e.content ++ (0 :: R)).take
      ((utf8Bytes e.content).length + 1) = utf8Bytes e.content ++ [0] := by
    rw [List.take_append 1]
    rfl
  rw [htake, fromUtf8Lossy_utf8Bytes]

theorem readStringData_blob_lenfield (A R : List Nat) (e : StringEntry)
    (ft : StringFileType) (hft : ft.hasLengthPrefix = true)
    (h0 : 0 ∉ utf8Bytes e.content)
    (hlen : (utf8Bytes e.content).length < 4294967296) :
    readStringData (A ++ (blobEntry e ft ++ R)) A.length ft =
      some (e.content,
        le32 ((utf8Bytes e.content).length % 4294967296) ++
          utf8Bytes e.content,
        some ((utf8Bytes e.content).length)) := by
  have hmod : (utf8Bytes e.content).length % 4294967296 =
      (utf8Bytes e.content).length := Nat.mod_eq_of_lt hlen
  have harr : A ++ (blobEntry e ft ++ R) =
      A ++ (le32 ((utf8Bytes e.content).length % 4294967296) ++
        ((utf8Bytes e.content ++ [0]) ++ R)) := by
    simp [blobEntry, hft, List.append_assoc]
  rw [readStringData]
  simp only [hft, if_true]
  rw [harr]
  rw [readU32At_exact A ((utf8Bytes e.content ++ [0]) ++ R)
    ((utf8Bytes e.content).length % 4294967296) (by omega)]
  have hnotlt : ¬((A ++ (le32 ((utf8Bytes e.content).length % 4294967296) ++
      ((utf8Bytes e.content ++ [0]) ++ R))).length <
      A.length + 4 + (utf8Bytes e.content).length % 4294967296) := by
    simp only [List.length_append, le32_length, List.length_cons,
      List.length_nil]
    omega
  simp only [hnotlt, if_false]
  have hdrop4 : (A ++ (le32 ((utf8Bytes e.content).length % 4294967296) ++
      ((utf8Bytes e.content ++ [0]) ++ R))).drop (A.length + 4) =
      (utf8Bytes e.content ++ [0]) ++ R := by
    rw [← List.append_assoc]
    rw [show A.length + 4 =
      (A ++ le32 ((utf8Bytes e.content).length % 4294967296)).length + 0 by
        simp [le32_length]]
    rw [List.drop_append 0, List.drop_zero]
  have hdrop0 : (A ++ (le32 ((utf8Bytes e.content).length % 4294967296) ++
      ((utf8Bytes e.content ++ [0]) ++ R))).drop A.length =
      le32 ((utf8Bytes e.content).length % 4294967296) ++
        ((utf8Bytes e.content ++ [0]) ++ R) := by
    rw [show A.length = A.length + 0 by omega, List.drop_append 0,
      List.drop_zero]
  rw [hdrop4, hdrop0]
  have htakeS : ((utf8Bytes e.content ++ [0]) ++ R).take
      ((utf8Bytes e.content).length % 4294967296) = utf8Bytes e.content := by
    rw [hmod, List.append_assoc]
    exact List.take_left _ _
  rw [htakeS, findIdx?_zero_none _ h0 0]
  have htakeR : (le32 ((utf8Bytes e.content).length % 4294967296) ++
      ((utf8Bytes e.content ++ [0]) ++ R)).take
      (4 + (utf8Bytes e.content).length % 4294967296) =
      le32 ((utf8Bytes e.content).length % 4294967296) ++
        utf8Bytes e.content := by
    rw [show 4 + (utf8Bytes e.content).length % 4294967296 =
      (le32 ((utf8Bytes e.content).length % 4294967296)).length +
        (utf8Bytes e.content).length % 4294967296 by simp [le32_length]]
    rw [List.take_append, htakeS]
  rw [htakeR, fromUtf8Lossy_utf8Bytes, hmod]

/-- What `read_string_data` recovers from the blob bytes of an entry. -/
def blobParse (e : StringEntry) (ft : StringFileType) :
    String × List Nat × Option Nat :=
  if ft.hasLengthPrefix then
    (e.content,
      le32 ((utf8Bytes e.content).length % 4294967296) ++ utf8Bytes e.content,
      some ((utf8Bytes e.content).length))
  else (e.content, utf8Bytes e.content ++ [0], none)

theorem readStringData_blob (A R : List Nat) (e : StringEntry)
    (ft : StringFileType) (h0 : 0 ∉ utf8Bytes e.content)
    (hlen : (utf8Bytes e.content).length < 4294967296) :
    readStringData (A ++ (blobEntry e ft ++ R)) A.length ft =
      some (blobParse e ft) := by
  cases ft with
  | dlstrings =>
    rw [readStringData_blob_lenfield A R e .dlstrings rfl h0 hlen]
    rfl
  | ilstrings =>
    rw [readStringData_blob_lenfield A R e .ilstrings rfl h0 hlen]
    rfl
  | strings =>
    rw [readStringData_blob_strings A R e h0]
    rfl

theorem blobEntry_length (e : StringEntry) (ft : StringFileType)
    (h : (utf8Bytes e.content).length + 5 < 4294967296) :
    (blobEntry e ft).length = e.getTotalSize ft := by
  cases ft <;>
    simp [blobEntry, StringEntry.getTotalSize, StringFileType.hasLengthPrefix,
      le32_length, Nat.mod_eq_of_lt (show (utf8Bytes e.content).length <
        4294967296 by omega), Nat.mod_eq_of_lt (show 4 +
        (utf8Bytes e.content).length + 1 < 4294967296 by omega)] <;>
    omega

theorem rebuildDirectoryGo_map_fst (entries : List (Nat × StringEntry))
    (ft : StringFileType) (ids : List Nat) :
    ∀ offset0 : Nat,
    (rebuildDirectoryGo entries ft ids offset0).map Prod.fst = ids := by
  induction ids with
  | nil => intro o; rfl
  | cons id rest ih =>
    intro o
    rw [rebuildDirectoryGo, List.map_cons, ih]

theorem rebuildDirectoryGo_get? (entries : List (Nat × StringEntry))
    (ft : StringFileType) (ids : List Nat) :
    ∀ (offset0 j : Nat),
    offset0 +
      ((ids.map (fun i => (lookupEntry entries i).getTotalSize ft)).sum) <
        4294967296 →
    (rebuildDirectoryGo entries ft ids offset0).get? j =
      (ids.get? j).map (fun i => (i, offset0 +
        (((ids.take j).map
          (fun i2 => (lookupEntry entries i2).getTotalSize ft)).sum))) := by
  induction ids with
  | nil => intro o j _; simp [rebuildDirectoryGo]
  | cons id rest ih =>
    intro o j hbound
    simp only [List.map_cons, List.sum_cons] at hbound
    rw [rebuildDirectoryGo]
    cases j with
    | zero => simp
    | succ j' =>
      rw [List.get?_cons_succ, List.get?_cons_succ]
      have hnw : (o + (lookupEntry entries id).getTotalSize ft) %
          4294967296 = o + (lookupEntry entries id).getTotalSize ft :=
        Nat.mod_eq_of_lt (by omega)
      rw [hnw, ih (o + (lookupEntry entries id).getTotalSize ft) j'
        (by omega)]
      cases hr : rest.get? j' with
      | none => rfl
      | some i =>
        simp only [Option.map_some', Option.some.injEq, List.take_succ_cons,
          List.map_cons, List.sum_cons, Prod.mk.injEq, true_and]
        omega

theorem parseEntriesGo_all_resolved (data : List Nat) (ft : StringFileType)
    (sds : Nat) (items : List (Nat × StringEntry)) :
    ∀ (j : Nat) (acc : List (Nat × StringEntry)) (skipped : Nat),
    (∀ (k : Nat) (it : Nat × StringEntry), items.get? k = some it →
      readU32At data (8 + ((j + k) * 8) % 4294967296) = some it.1 ∧
      readU32At data (8 + ((j + k) * 8) % 4294967296 + 4) =
        some it.2.relative_offset ∧
      it.2.directory_address = 8 + ((j + k) * 8) % 4294967296 ∧
      it.2.absolute_offset = sds + it.2.relative_offset ∧
      it.2.absolute_offset < data.length ∧
      readStringData data it.2.absolute_offset ft =
        some (it.2.content, it.2.raw_data, it.2.length) ∧
      it.2.id = it.1) →
    parseEntriesGo data ft sds j items.length acc skipped =
      some (items.foldl (fun m it => hmInsert m it.1 it.2) acc, skipped) := by
  induction items with
  | nil => intro j acc skipped _; rfl
  | cons it rest ih =>
    intro j acc skipped hgood
    obtain ⟨h1, h2, h3, h4, h5, h6, h7⟩ := hgood 0 it rfl
    simp only [Nat.add_zero] at h1 h2 h3
    rw [List.length_cons, parseEntriesGo]
    rw [h4] at h5 h6
    simp only [h1, h2]
    rw [if_neg (by omega)]
    simp only [h6]
    have hent : (⟨it.1, 8 + (j * 8) % 4294967296, it.2.relative_offset,
        sds + it.2.relative_offset, it.2.length, it.2.content,
        it.2.raw_data⟩ : StringEntry) = it.2 := by
      obtain ⟨idv, e⟩ := it
      obtain ⟨eid, eda, ero, eao, el, ec, erd⟩ := e
      simp only at h3 h4 h7 ⊢
      rw [h7, ← h3, ← h4]
    rw [hent]
    rw [ih (j + 1) (hmInsert acc it.1 it.2) skipped (fun k it2 hk => by
      have h := hgood (k + 1) it2 (by rwa [List.get?_cons_succ])
      rwa [show j + (k + 1) = j + 1 + k by omega] at h)]
    rfl


theorem lookupEntry_eq_of_mem (entries : List (Nat × StringEntry))
    (hkeys : (entries.map Prod.fst).Nodup) (p : Nat × StringEntry)
    (hp : p ∈ entries) : lookupEntry entries p.1 = p.2 := by
  induction entries with
  | nil => simp at hp
  | cons q rest ih =>
    simp only [List.map_cons, List.nodup_cons] at hkeys
    rcases List.mem_cons.mp hp with h | h
    · subst h
      rw [lookupEntry, List.find?_cons_of_pos _ (by simp)]
      rfl
    · have hne : (q.1 == p.1) = false := by
        simp only [beq_eq_false_iff_ne, ne_eq]
        intro he
        exact hkeys.1 (he ▸ List.mem_map_of_mem Prod.fst h)
      rw [lookupEntry, List.find?_cons_of_neg _ (by simp [hne])]
      exact ih hkeys.2 h

theorem lookup_eq_some_of_mem (entries : List (Nat × StringEntry))
    (hkeys : (entries.map Prod.fst).Nodup) (p : Nat × StringEntry)
    (hp : p ∈ entries) : entries.lookup p.1 = some p.2 := by
  induction entries with
  | nil => simp at hp
  | cons q rest ih =>
    simp only [List.map_cons, List.nodup_cons] at hkeys
    rcases List.mem_cons.mp hp with h | h
    · subst h
      simp [List.lookup]
    · have hne : (p.1 == q.1) = false := by
        simp only [beq_eq_false_iff_ne, ne_eq]
        intro he
        exact hkeys.1 (he ▸ List.mem_map_of_mem Prod.fst h)
      rw [List.lookup, hne]
      exact ih hkeys.2 h

theorem lookup_eq_none_of_not_mem (entries : List (Nat × StringEntry))
    (id : Nat) (h : id ∉ entries.map Prod.fst) : entries.lookup id = none := by
  induction entries with
  | nil => rfl
  | cons q rest ih =>
    simp only [List.map_cons, List.mem_cons, not_or] at h
    have hne : (id == q.1) = false := by
      simp only [beq_eq_false_iff_ne, ne_eq]
      exact h.1
    rw [List.lookup, hne]
    exact ih h.2

theorem foldl_hmInsert_fresh (items : List (Nat × StringEntry)) :
    ∀ acc : List (Nat × StringEntry),
    ((acc.map Prod.fst) ++ items.map Prod.fst).Nodup →
    items.foldl (fun m it => hmInsert m it.1 it.2) acc = acc ++ items := by
  induction items with
  | nil => intro acc _; simp
  | cons it rest ih =>
    intro acc hnd
    rw [List.foldl_cons]
    rw [List.map_cons] at hnd
    have hdisj := (List.nodup_append.mp hnd).2.2
    have hfresh : it.1 ∉ acc.map Prod.fst := fun hmem =>
      hdisj hmem (List.mem_cons_self _ _)
    have hany : acc.any (fun p => p.1 == it.1) = false := by
      rw [Bool.eq_false_iff]
      intro hany
      obtain ⟨p, hp, hbeq⟩ := List.any_eq_true.mp hany
      exact hfresh ((eq_of_beq hbeq) ▸
        List.mem_map_of_mem Prod.fst hp)
    have hins : hmInsert acc it.1 it.2 = acc ++ [(it.1, it.2)] := by
      rw [hmInsert, if_neg (by rw [hany]; exact Bool.false_ne_true)]
    rw [hins]
    have hnd2 : (((acc ++ [(it.1, it.2)]).map Prod.fst) ++
        rest.map Prod.fst).Nodup := by
      rw [List.map_append, List.append_assoc]
      simpa using hnd
    rw [ih (acc ++ [(it.1, it.2)]) hnd2, List.append_assoc]
    rfl

theorem blobParse_fst (e : StringEntry) (ft : StringFileType) :
    (blobParse e ft).1 = e.content := by
  cases ft <;> rfl

theorem blobEntry_pos (e : StringEntry) (ft : StringFileType) :
    0 < (blobEntry e ft).length := by
  cases ft <;> simp [blobEntry]

theorem take_map_sum_le (f : Nat → Nat) (ids : List Nat) (j : Nat) :
    ((ids.take j).map f).sum ≤ (ids.map f).sum := by
  conv_rhs => rw [← List.take_append_drop j ids]
  rw [List.map_append, List.sum_append]
  omega

theorem dirflat_length (pairs : List (Nat × Nat)) :
    ((pairs.map (fun p => le32 p.1 ++ le32 p.2)).flatten).length =
      8 * pairs.length := by
  induction pairs with
  | nil => rfl
  | cons q rest ih =>
    simp only [List.map_cons, List.flatten_cons, List.length_append,
      List.length_cons, le32_length, ih]
    omega

theorem flatten_get_split (ls : List (List Nat)) (k : Nat) (l : List Nat)
    (h : ls.get? k = some l) :
    ls.flatten = (ls.take k).flatten ++ (l ++ (ls.drop (k + 1)).flatten) := by
  conv_lhs => rw [← List.take_append_drop k ls]
  rw [List.flatten_append]
  congr 1
  have hk : k < ls.length := by
    by_contra hge
    rw [List.get?_eq_none.mpr (by omega)] at h
    exact Option.noConfusion h
  have hdrop : ls.drop k = l :: ls.drop (k + 1) := by
    rw [List.drop_eq_get_cons hk]
    have := List.get?_eq_get hk
    rw [h] at this
    rw [Option.some_inj.mp this.symm]
  rw [hdrop, List.flatten_cons]

theorem sum_sizes_sorted (entries : List (Nat × StringEntry))
    (ft : StringFileType) (hkeys : (entries.map Prod.fst).Nodup) :
    ((List.insertionSort (· ≤ ·) (entries.map Prod.fst)).map
        (fun i => (lookupEntry entries i).getTotalSize ft)).sum =
      (entries.map (fun p => p.2.getTotalSize ft)).sum := by
  have hperm := List.perm_insertionSort (· ≤ ·) (entries.map Prod.fst)
  rw [(hperm.map (fun i => (lookupEntry entries i).getTotalSize ft)).sum_eq]
  rw [List.map_map]
  apply congrArg
  apply List.map_eq_map_iff.mpr
  intro p hp
  simp only [Function.comp_apply]
  rw [lookupEntry_eq_of_mem entries hkeys p hp]

theorem lookupEntry_scrub_content (entries : List (Nat × StringEntry))
    (id : Nat) :
    (lookupEntry (entries.map (fun p =>
        (p.1, { p.2 with length := none, raw_data := [] }))) id).content =
      (lookupEntry entries id).content := by
  induction entries with
  | nil => rfl
  | cons q rest ih =>
    by_cases hq : (q.1 == id) = true
    · rw [lookupEntry, lookupEntry, List.map_cons, List.find?_cons,
        List.find?_cons]
      simp only [hq]
      rfl
    · rw [Bool.not_eq_true] at hq
      rw [lookupEntry, lookupEntry, List.map_cons, List.find?_cons,
        List.find?_cons]
      simp only [hq]
      exact ih

theorem rebuildDirectoryGo_scrub (entries : List (Nat × StringEntry))
    (ft : StringFileType) (ids : List Nat) :
    ∀ o : Nat,
    rebuildDirectoryGo (entries.map (fun p =>
        (p.1, { p.2 with length := none, raw_data := [] }))) ft ids o =
      rebuildDirectoryGo entries ft ids o := by
  induction ids with
  | nil => intro o; rfl
  | cons id rest ih =>
    intro o
    rw [rebuildDirectoryGo, rebuildDirectoryGo]
    have hsz : (lookupEntry (entries.map (fun p =>
        (p.1, { p.2 with length := none, raw_data := [] }))) id).getTotalSize
          ft = (lookupEntry entries id).getTotalSize ft := by
      rw [StringEntry.getTotalSize, StringEntry.getTotalSize,
        lookupEntry_scrub_content]
    rw [hsz, ih]


/-- The entry `parse_bytes` reconstructs at directory index `k` of a rebuilt
table, for directory id `id` and relative offset `off`. -/
def reparsedEntry (entries : List (Nat × StringEntry)) (ft : StringFileType)
    (k id off : Nat) : StringEntry :=
  ⟨id, 8 + (k * 8) % 4294967296, off,
    8 + (entries.length * 8) % 4294967296 + off,
    (blobParse (lookupEntry entries id) ft).2.2,
    (blobParse (lookupEntry entries id) ft).1,
    (blobParse (lookupEntry entries id) ft).2.1⟩

/-- The full entry list `parse_bytes` reconstructs from a rebuilt table. -/
def reparsedItems (entries : List (Nat × StringEntry)) (ft : StringFileType) :
    List (Nat × StringEntry) :=
  (rebuildDirectory entries ft).enum.map
    (fun q => (q.2.1, reparsedEntry entries ft q.1 q.2.1 q.2.2))

theorem reparsedItems_map_fst (entries : List (Nat × StringEntry))
    (ft : StringFileType) :
    (reparsedItems entries ft).map Prod.fst =
      List.insertionSort (· ≤ ·) (entries.map Prod.fst) := by
  rw [reparsedItems, List.map_map]
  have h : ((Prod.fst ∘ fun q : Nat × (Nat × Nat) =>
      (q.2.1, reparsedEntry entries ft q.1 q.2.1 q.2.2))) =
      (Prod.fst ∘ Prod.snd) := rfl
  rw [h, ← List.map_map, List.enum_map_snd, rebuildDirectory,
    rebuildDirectoryGo_map_fst]

theorem reparsedItems_lookup_content (entries : List (Nat × StringEntry))
    (ft : StringFileType) (hkeys : (entries.map Prod.fst).Nodup) :
    ∀ id : Nat,
    ((reparsedItems entries ft).lookup id).map (fun e => e.content) =
      (entries.lookup id).map (fun e => e.content) := by
  intro id
  have hperm := List.perm_insertionSort (· ≤ ·) (entries.map Prod.fst)
  have hifst := reparsedItems_map_fst entries ft
  by_cases hmem : id ∈ entries.map Prod.fst
  · obtain ⟨p, hpmem, hp1⟩ := List.mem_map.mp hmem
    have hids : id ∈ (reparsedItems entries ft).map Prod.fst := by
      rw [hifst]
      exact hperm.mem_iff.mpr hmem
    obtain ⟨q, hqmem, hq1⟩ := List.mem_map.mp hids
    have hinodup : ((reparsedItems entries ft).map Prod.fst).Nodup := by
      rw [hifst]
      exact hperm.nodup_iff.mpr hkeys
    have hl1 : (reparsedItems entries ft).lookup id = some q.2 := by
      rw [← hq1]
      exact lookup_eq_some_of_mem _ hinodup q hqmem
    have hl2 : entries.lookup id = some p.2 := by
      rw [← hp1]
      exact lookup_eq_some_of_mem _ hkeys p hpmem
    rw [hl1, hl2, Option.map_some', Option.map_some']
    obtain ⟨r, _, hr⟩ := List.mem_map.mp hqmem
    have hqc : q.2.content = (lookupEntry entries q.1).content := by
      rw [← hr]
      exact blobParse_fst _ ft
    rw [Option.some_inj, hqc, hq1, ← hp1,
      lookupEntry_eq_of_mem entries hkeys p hpmem]
  · have h1 : (reparsedItems entries ft).lookup id = none := by
      apply lookup_eq_none_of_not_mem
      rw [hifst]
      intro hmem2
      exact hmem (hperm.mem_iff.mp hmem2)
    rw [h1, lookup_eq_none_of_not_mem entries id hmem]

theorem rebuildDirectory_sorted (entries : List (Nat × StringEntry))
    (ft : StringFileType) :
    ((rebuildDirectory entries ft).map Prod.fst).Sorted (· ≤ ·) := by
  rw [rebuildDirectory, rebuildDirectoryGo_map_fst]
  exact List.sorted_insertionSort _ _

theorem rebuild_scrub (entries : List (Nat × StringEntry))
    (ft : StringFileType) :
    rebuild (entries.map (fun p =>
        (p.1, { p.2 with length := none, raw_data := [] }))) ft =
      rebuild entries ft := by
  have h1 : (entries.map (fun p =>
      (p.1, { p.2 with length := none, raw_data := [] }))).map
        (fun p => p.2.getTotalSize ft) =
      entries.map (fun p => p.2.getTotalSize ft) := by
    rw [List.map_map]
    rfl
  have h2 : (entries.map (fun p =>
      (p.1, { p.2 with length := none, raw_data := [] }))).map Prod.fst =
      entries.map Prod.fst := by
    rw [List.map_map]
    rfl
  have h3 : ∀ id : Nat, blobEntry (lookupEntry (entries.map (fun p =>
      (p.1, { p.2 with length := none, raw_data := [] }))) id) ft =
      blobEntry (lookupEntry entries id) ft := by
    intro id
    simp only [blobEntry, lookupEntry_scrub_content]
  simp only [rebuild, rebuildDirectory, List.length_map, h1, h2,
    rebuildDirectoryGo_scrub]
  rw [List.map_eq_map_iff.mpr (fun id _ => h3 id)]

theorem rebuildDirectory_offsets (entries : List (Nat × StringEntry))
    (ft : StringFileType) (hkeys : (entries.map Prod.fst).Nodup)
    (hclen : ∀ p ∈ entries,
      (utf8Bytes p.2.content).length + 5 < 4294967296)
    (hsize : 8 + 8 * entries.length +
      (entries.map (fun p => p.2.getTotalSize ft)).sum < 4294967296) :
    ∀ j p, (rebuildDirectory entries ft).get? j = some p →
      p.2 = (((rebuildDirectory entries ft).take j).map
        (fun q => (blobEntry (lookupEntry entries q.1) ft).length)).sum := by
  intro j p hget
  have hperm := List.perm_insertionSort (· ≤ ·) (entries.map Prod.fst)
  have hbound : (0 : Nat) +
      ((List.insertionSort (· ≤ ·) (entries.map Prod.fst)).map
        (fun i => (lookupEntry entries i).getTotalSize ft)).sum <
      4294967296 := by
    rw [Nat.zero_add, sum_sizes_sorted entries ft hkeys]
    omega
  have hdirtake : ((rebuildDirectory entries ft).take j).map
      (fun q => (blobEntry (lookupEntry entries q.1) ft).length) =
      ((List.insertionSort (· ≤ ·) (entries.map Prod.fst)).take j).map
        (fun i => (blobEntry (lookupEntry entries i) ft).length) := by
    rw [show (fun q : Nat × Nat =>
        (blobEntry (lookupEntry entries q.1) ft).length) =
      ((fun i => (blobEntry (lookupEntry entries i) ft).length) ∘ Prod.fst)
      from rfl]
    rw [← List.map_map, List.map_take, rebuildDirectory,
      rebuildDirectoryGo_map_fst]
  have hcong : ((List.insertionSort (· ≤ ·)
        (entries.map Prod.fst)).take j).map
      (fun i => (blobEntry (lookupEntry entries i) ft).length) =
      ((List.insertionSort (· ≤ ·) (entries.map Prod.fst)).take j).map
        (fun i => (lookupEntry entries i).getTotalSize ft) := by
    apply List.map_eq_map_iff.mpr
    intro i hi
    have hmem : i ∈ entries.map Prod.fst :=
      hperm.mem_iff.mp (List.mem_of_mem_take hi)
    obtain ⟨q, hq, hq1⟩ := List.mem_map.mp hmem
    rw [← hq1, lookupEntry_eq_of_mem entries hkeys q hq]
    exact blobEntry_length q.2 ft (hclen q hq)
  rw [rebuildDirectory] at hget
  rw [rebuildDirectoryGo_get? entries ft _ 0 j hbound] at hget
  cases hik : (List.insertionSort (· ≤ ·) (entries.map Prod.fst)).get? j with
  | none =>
    rw [hik] at hget
    exact absurd hget (by simp)
  | some idk =>
    rw [hik, Option.map_some', Option.some_inj] at hget
    rw [← hget, hdirtake, hcong]
    simp only [Nat.zero_add]

theorem sum_take_lt (f : Nat → Nat) (ids : List Nat) (k : Nat)
    (hk : k < ids.length) (hpos : 0 < f (ids.get ⟨k, hk⟩)) :
    ((ids.take k).map f).sum < (ids.map f).sum := by
  conv_rhs => rw [← List.take_append_drop k ids]
  rw [List.map_append, List.sum_append, List.drop_eq_get_cons hk,
    List.map_cons, List.sum_cons]
  omega

theorem rebuild_decomp (entries : List (Nat × StringEntry))
    (ft : StringFileType) :
    rebuild entries ft =
      le32 (entries.length % 4294967296) ++
      (le32 ((entries.map (fun p => p.2.getTotalSize ft)).sum %
        4294967296) ++
      (((rebuildDirectory entries ft).map
        (fun p => le32 p.1 ++ le32 p.2)).flatten ++
      ((List.insertionSort (· ≤ ·) (entries.map Prod.fst)).map
        (fun id => blobEntry (lookupEntry entries id) ft)).flatten)) := by
  simp only [rebuild, List.append_assoc]

theorem rebuildDirectory_length (entries : List (Nat × StringEntry))
    (ft : StringFileType) :
    (rebuildDirectory entries ft).length = entries.length := by
  have h := congrArg List.length (rebuildDirectoryGo_map_fst entries ft
    (List.insertionSort (· ≤ ·) (entries.map Prod.fst)) 0)
  rw [List.length_map] at h
  rw [rebuildDirectory, h, (List.perm_insertionSort _ _).length_eq,
    List.length_map]

theorem blobEntry_length_sorted (entries : List (Nat × StringEntry))
    (ft : StringFileType) (hkeys : (entries.map Prod.fst).Nodup)
    (hclen : ∀ p ∈ entries,
      (utf8Bytes p.2.content).length + 5 < 4294967296) :
    ∀ i ∈ List.insertionSort (· ≤ ·) (entries.map Prod.fst),
      (blobEntry (lookupEntry entries i) ft).length =
        (lookupEntry entries i).getTotalSize ft := by
  intro i hi
  obtain ⟨q, hq, hq1⟩ := List.mem_map.mp
    ((List.perm_insertionSort (· ≤ ·) (entries.map Prod.fst)).mem_iff.mp hi)
  rw [← hq1, lookupEntry_eq_of_mem entries hkeys q hq]
  exact blobEntry_length q.2 ft (hclen q hq)

theorem blob_flatten_length (entries : List (Nat × StringEntry))
    (ft : StringFileType) (hkeys : (entries.map Prod.fst).Nodup)
    (hclen : ∀ p ∈ entries,
      (utf8Bytes p.2.content).length + 5 < 4294967296) :
    (((List.insertionSort (· ≤ ·) (entries.map Prod.fst)).map
      (fun id => blobEntry (lookupEntry entries id) ft)).flatten).length =
      (entries.map (fun p => p.2.getTotalSize ft)).sum := by
  rw [List.length_join, List.map_map]
  have hx : (List.insertionSort (· ≤ ·) (entries.map Prod.fst)).map
      (List.length ∘ fun id => blobEntry (lookupEntry entries id) ft) =
      (List.insertionSort (· ≤ ·) (entries.map Prod.fst)).map
        (fun i => (lookupEntry entries i).getTotalSize ft) :=
    List.map_eq_map_iff.mpr (fun i hi =>
      blobEntry_length_sorted entries ft hkeys hclen i hi)
  rw [hx]
  exact sum_sizes_sorted entries ft hkeys

theorem blob_take_length (entries : List (Nat × StringEntry))
    (ft : StringFileType) (hkeys : (entries.map Prod.fst).Nodup)
    (hclen : ∀ p ∈ entries,
      (utf8Bytes p.2.content).length + 5 < 4294967296) (k : Nat) :
    ((((List.insertionSort (· ≤ ·) (entries.map Prod.fst)).map
      (fun id => blobEntry (lookupEntry entries id) ft)).take k).flatten).length
      = (((List.insertionSort (· ≤ ·) (entries.map Prod.fst)).take k).map
        (fun i => (lookupEntry entries i).getTotalSize ft)).sum := by
  rw [← List.map_take, List.length_join, List.map_map]
  have hx : ((List.insertionSort (· ≤ ·) (entries.map Prod.fst)).take k).map
      (List.length ∘ fun id => blobEntry (lookupEntry entries id) ft) =
      ((List.insertionSort (· ≤ ·) (entries.map Prod.fst)).take k).map
        (fun i => (lookupEntry entries i).getTotalSize ft) :=
    List.map_eq_map_iff.mpr (fun i hi =>
      blobEntry_length_sorted entries ft hkeys hclen i
        (List.mem_of_mem_take hi))
  rw [hx]

theorem rebuild_length (entries : List (Nat × StringEntry))
    (ft : StringFileType) (hkeys : (entries.map Prod.fst).Nodup)
    (hclen : ∀ p ∈ entries,
      (utf8Bytes p.2.content).length + 5 < 4294967296) :
    (rebuild entries ft).length = 8 + 8 * entries.length +
      (entries.map (fun p => p.2.getTotalSize ft)).sum := by
  rw [rebuild_decomp]
  simp only [List.length_append, le32_length, dirflat_length,
    rebuildDirectory_length, blob_flatten_length entries ft hkeys hclen]
  omega

theorem rebuildDirectory_get?_char (entries : List (Nat × StringEntry))
    (ft : StringFileType) (hkeys : (entries.map Prod.fst).Nodup)
    (hS : (entries.map (fun p => p.2.getTotalSize ft)).sum < 4294967296)
    (j : Nat) (p : Nat × Nat)
    (h : (rebuildDirectory entries ft).get? j = some p) :
    ∃ hj : j < (List.insertionSort (· ≤ ·) (entries.map Prod.fst)).length,
      p = ((List.insertionSort (· ≤ ·) (entries.map Prod.fst)).get ⟨j, hj⟩,
        (((List.insertionSort (· ≤ ·) (entries.map Prod.fst)).take j).map
          (fun i => (lookupEntry entries i).getTotalSize ft)).sum) := by
  have hbound : (0 : Nat) +
      ((List.insertionSort (· ≤ ·) (entries.map Prod.fst)).map
        (fun i => (lookupEntry entries i).getTotalSize ft)).sum <
      4294967296 := by
    rw [Nat.zero_add, sum_sizes_sorted entries ft hkeys]
    omega
  rw [rebuildDirectory, rebuildDirectoryGo_get? entries ft _ 0 j hbound] at h
  cases hik : (List.insertionSort (· ≤ ·) (entries.map Prod.fst)).get? j with
  | none =>
    rw [hik] at h
    exact absurd h (by simp)
  | some idk =>
    rw [hik, Option.map_some', Option.some_inj] at h
    have hjl : j < (List.insertionSort (· ≤ ·)
        (entries.map Prod.fst)).length := by
      by_contra hge
      rw [List.get?_eq_none.mpr (by omega)] at hik
      exact Option.noConfusion hik
    refine ⟨hjl, ?_⟩
    rw [← h, Nat.zero_add]
    have hg := List.get?_eq_get hjl
    rw [hik] at hg
    rw [Option.some_inj.mp hg]

theorem rebuildDirectory_vals (entries : List (Nat × StringEntry))
    (ft : StringFileType) (hkeys : (entries.map Prod.fst).Nodup)
    (hid : ∀ p ∈ entries, p.1 < 4294967296)
    (hS : (entries.map (fun p => p.2.getTotalSize ft)).sum < 4294967296) :
    ∀ r ∈ rebuildDirectory entries ft,
      r.1 < 4294967296 ∧ r.2 < 4294967296 := by
  intro r hr
  obtain ⟨j, hj⟩ := List.mem_iff_get?.mp hr
  obtain ⟨hjl, hp⟩ := rebuildDirectory_get?_char entries ft hkeys hS j r hj
  have hperm := List.perm_insertionSort (· ≤ ·) (entries.map Prod.fst)
  constructor
  · rw [hp]
    obtain ⟨q, hq, hq1⟩ := List.mem_map.mp
      (hperm.mem_iff.mp (List.get_mem _ j hjl))
    exact hq1 ▸ hid q hq
  · rw [hp]
    have hle := take_map_sum_le
      (fun i => (lookupEntry entries i).getTotalSize ft)
      (List.insertionSort (· ≤ ·) (entries.map Prod.fst)) j
    rw [sum_sizes_sorted entries ft hkeys] at hle
    exact lt_of_le_of_lt hle hS

theorem rebuild_index_facts (entries : List (Nat × StringEntry))
    (ft : StringFileType)
    (hkeys : (entries.map Prod.fst).Nodup)
    (hid : ∀ p ∈ entries, p.1 < 4294967296)
    (hnul : ∀ p ∈ entries, 0 ∉ utf8Bytes p.2.content)
    (hclen : ∀ p ∈ entries,
      (utf8Bytes p.2.content).length + 5 < 4294967296)
    (hsize : 8 + 8 * entries.length +
      (entries.map (fun p => p.2.getTotalSize ft)).sum < 4294967296)
    (k : Nat) (it : Nat × StringEntry)
    (hk : (reparsedItems entries ft).get? k = some it) :
    readU32At (rebuild entries ft) (8 + ((0 + k) * 8) % 4294967296) =
      some it.1 ∧
    readU32At (rebuild entries ft)
      (8 + ((0 + k) * 8) % 4294967296 + 4) = some it.2.relative_offset ∧
    it.2.directory_address = 8 + ((0 + k) * 8) % 4294967296 ∧
    it.2.absolute_offset =
      8 + (entries.length * 8) % 4294967296 + it.2.relative_offset ∧
    it.2.absolute_offset < (rebuild entries ft).length ∧
    readStringData (rebuild entries ft) it.2.absolute_offset ft =
      some (it.2.content, it.2.raw_data, it.2.length) ∧
    it.2.id = it.1 := by
  have hperm := List.perm_insertionSort (· ≤ ·) (entries.map Prod.fst)
  have hidslen : (List.insertionSort (· ≤ ·) (entries.map Prod.fst)).length =
      entries.length := by
    rw [hperm.length_eq, List.length_map]
  have hSM : (entries.map (fun p => p.2.getTotalSize ft)).sum <
      4294967296 := by
    omega
  rw [reparsedItems, List.get?_map, List.enum_get?] at hk
  cases hdk : (rebuildDirectory entries ft).get? k with
  | none =>
    rw [hdk] at hk
    exact absurd hk (by simp)
  | some p =>
    rw [hdk] at hk
    simp only [Option.map_some', Option.some_inj] at hk
    obtain ⟨hkl, hp⟩ :=
      rebuildDirectory_get?_char entries ft hkeys hSM k p hdk
    subst hp
    subst hk
    have hkn : k < entries.length := hidslen ▸ hkl
    have hmemk : (List.insertionSort (· ≤ ·)
        (entries.map Prod.fst)).get ⟨k, hkl⟩ ∈
        List.insertionSort (· ≤ ·) (entries.map Prod.fst) :=
      List.get_mem _ k hkl
    obtain ⟨q, hq, hq1⟩ := List.mem_map.mp (hperm.mem_iff.mp hmemk)
    have hlookk : lookupEntry entries ((List.insertionSort (· ≤ ·)
        (entries.map Prod.fst)).get ⟨k, hkl⟩) = q.2 := by
      rw [← hq1]
      exact lookupEntry_eq_of_mem entries hkeys q hq
    have hvals := rebuildDirectory_vals entries ft hkeys hid hSM
    have hread := readU32At_dir (rebuildDirectory entries ft)
      (le32 (entries.length % 4294967296) ++
        le32 ((entries.map (fun p => p.2.getTotalSize ft)).sum %
          4294967296))
      (((List.insertionSort (· ≤ ·) (entries.map Prod.fst)).map
        (fun id => blobEntry (lookupEntry entries id) ft)).flatten)
      k _ hvals hdk
    rw [show (le32 (entries.length % 4294967296) ++
        le32 ((entries.map (fun p => p.2.getTotalSize ft)).sum %
          4294967296)).length = 8 from rfl] at hread
    rw [List.append_assoc] at hread
    rw [← rebuild_decomp entries ft] at hread
    have hblobk : ((List.insertionSort (· ≤ ·) (entries.map Prod.fst)).map
        (fun id => blobEntry (lookupEntry entries id) ft)).get? k =
        some (blobEntry (lookupEntry entries
          ((List.insertionSort (· ≤ ·) (entries.map Prod.fst)).get
            ⟨k, hkl⟩)) ft) := by
      rw [List.get?_map, List.get?_eq_get hkl, Option.map_some']
    have hsplit := flatten_get_split _ k _ hblobk
    have hdataA : rebuild entries ft =
        (le32 (entries.length % 4294967296) ++
          (le32 ((entries.map (fun p => p.2.getTotalSize ft)).sum %
            4294967296) ++
          (((rebuildDirectory entries ft).map
            (fun p => le32 p.1 ++ le32 p.2)).flatten ++
          ((((List.insertionSort (· ≤ ·) (entries.map Prod.fst)).map
            (fun id => blobEntry (lookupEntry entries id) ft)).take
              k).flatten)))) ++
        (blobEntry (lookupEntry entries ((List.insertionSort (· ≤ ·)
            (entries.map Prod.fst)).get ⟨k, hkl⟩)) ft ++
          (((List.insertionSort (· ≤ ·) (entries.map Prod.fst)).map
            (fun id => blobEntry (lookupEntry entries id) ft)).drop
              (k + 1)).flatten) := by
      rw [rebuild_decomp entries ft, hsplit]
      simp only [List.append_assoc]
    have hAlen : (le32 (entries.length % 4294967296) ++
        (le32 ((entries.map (fun p => p.2.getTotalSize ft)).sum %
          4294967296) ++
        (((rebuildDirectory entries ft).map
          (fun p => le32 p.1 ++ le32 p.2)).flatten ++
        ((((List.insertionSort (· ≤ ·) (entries.map Prod.fst)).map
          (fun id => blobEntry (lookupEntry entries id) ft)).take
            k).flatten)))).length =
        8 + (entries.length * 8) % 4294967296 +
          (((List.insertionSort (· ≤ ·) (entries.map Prod.fst)).take k).map
            (fun i => (lookupEntry entries i).getTotalSize ft)).sum := by
      simp only [List.length_append, le32_length, dirflat_length,
        rebuildDirectory_length, blob_take_length entries ft hkeys hclen k]
      omega
    have hpos : 0 < (lookupEntry entries ((List.insertionSort (· ≤ ·)
        (entries.map Prod.fst)).get ⟨k, hkl⟩)).getTotalSize ft := by
      rw [hlookk, ← blobEntry_length q.2 ft (hclen q hq)]
      exact blobEntry_pos q.2 ft
    have hOkS := sum_take_lt
      (fun i => (lookupEntry entries i).getTotalSize ft)
      (List.insertionSort (· ≤ ·) (entries.map Prod.fst)) k hkl hpos
    rw [sum_sizes_sorted entries ft hkeys] at hOkS
    have h0c : 0 ∉ utf8Bytes (lookupEntry entries
        ((List.insertionSort (· ≤ ·) (entries.map Prod.fst)).get
          ⟨k, hkl⟩)).content := by
      rw [hlookk]
      exact hnul q hq
    have hlenc : (utf8Bytes (lookupEntry entries
        ((List.insertionSort (· ≤ ·) (entries.map Prod.fst)).get
          ⟨k, hkl⟩)).content).length < 4294967296 := by
      rw [hlookk]
      have := hclen q hq
      omega
    simp only [reparsedEntry, Nat.zero_add]
    refine ⟨?_, ?_, trivial, trivial, ?_, ?_, trivial⟩
    · rw [show 8 + k * 8 % 4294967296 = 8 + 8 * k by omega]
      exact hread.1
    · rw [show 8 + k * 8 % 4294967296 + 4 = 8 + 8 * k + 4 by omega]
      exact hread.2
    · rw [rebuild_length entries ft hkeys hclen]
      omega
    · rw [hdataA, ← hAlen]
      exact readStringData_blob _ _ _ ft h0c hlenc

theorem parseBytes_rebuild (entries : List (Nat × StringEntry))
    (ft : StringFileType)
    (hkeys : (entries.map Prod.fst).Nodup)
    (hid : ∀ p ∈ entries, p.1 < 4294967296)
    (hnul : ∀ p ∈ entries, 0 ∉ utf8Bytes p.2.content)
    (hclen : ∀ p ∈ entries,
      (utf8Bytes p.2.content).length + 5 < 4294967296)
    (hsize : 8 + 8 * entries.length +
      (entries.map (fun p => p.2.getTotalSize ft)).sum < 4294967296) :
    parseBytes (rebuild entries ft) ft =
      some (reparsedItems entries ft, 0) := by
  by_cases hnil : entries = []
  · subst hnil
    cases ft <;> rfl
  · have hn : 0 < entries.length := List.length_pos.mpr hnil
    have hperm := List.perm_insertionSort (· ≤ ·) (entries.map Prod.fst)
    have hlen8 : ¬ ((rebuild entries ft).length < 8) := by
      rw [rebuild_length entries ft hkeys hclen]
      omega
    have h0 : readU32At (rebuild entries ft) 0 = some entries.length := by
      have h := readU32At_exact []
        (le32 ((entries.map (fun p => p.2.getTotalSize ft)).sum %
          4294967296) ++
         (((rebuildDirectory entries ft).map
           (fun p => le32 p.1 ++ le32 p.2)).flatten ++
          ((List.insertionSort (· ≤ ·) (entries.map Prod.fst)).map
            (fun id => blobEntry (lookupEntry entries id) ft)).flatten))
        (entries.length % 4294967296) (by omega)
      rw [List.nil_append, ← rebuild_decomp entries ft] at h
      rw [show ([] : List Nat).length = 0 from rfl] at h
      rw [h, Option.some_inj]
      omega
    have h4 : readU32At (rebuild entries ft) 4 =
        some ((entries.map (fun p => p.2.getTotalSize ft)).sum %
          4294967296) := by
      have h := readU32At_exact (le32 (entries.length % 4294967296))
        ((((rebuildDirectory entries ft).map
           (fun p => le32 p.1 ++ le32 p.2)).flatten ++
          ((List.insertionSort (· ≤ ·) (entries.map Prod.fst)).map
            (fun id => blobEntry (lookupEntry entries id) ft)).flatten))
        ((entries.map (fun p => p.2.getTotalSize ft)).sum % 4294967296)
        (by omega)
      rw [← rebuild_decomp entries ft] at h
      rw [show (le32 (entries.length % 4294967296)).length = 4 from rfl]
        at h
      exact h
    rw [parseBytes, if_neg hlen8]
    rw [h0, h4]
    show (if entries.length = 0 then some ([], (0 : Nat))
      else parseEntriesGo (rebuild entries ft) ft
        (8 + entries.length * 8 % 4294967296) 0 entries.length [] 0) =
      some (reparsedItems entries ft, 0)
    rw [if_neg (show ¬ (entries.length = 0) by omega)]
    have hitems_len : (reparsedItems entries ft).length = entries.length := by
      rw [reparsedItems, List.length_map, List.enum_length,
        rebuildDirectory_length]
    nth_rewrite 2 [← hitems_len]
    rw [parseEntriesGo_all_resolved (rebuild entries ft) ft
      (8 + (entries.length * 8) % 4294967296) (reparsedItems entries ft)
      0 [] 0 (fun k it hk =>
        rebuild_index_facts entries ft hkeys hid hnul hclen hsize k it hk)]
    rw [foldl_hmInsert_fresh (reparsedItems entries ft) [] (by
      rw [List.map_nil, List.nil_append, reparsedItems_map_fst]
      exact hperm.nodup_iff.mpr hkeys)]
    rw [List.nil_append]

/-- C4 counterexample: a string table whose single entry's content carries an
interior NUL ("a\x00b") rebuilds and re-parses without error, but the
re-parsed table maps id 1 to "a" — the content is truncated at the NUL — so
re-parsing does not reproduce the id-to-content mapping the table held, and
the unrestricted round-trip claim is false. -/
theorem string_table_roundtrip_nul_counterexample :
    (parseBytes (rebuild [(1, ⟨1, 0, 0, 0, none, "a\x00b", []⟩)] .strings)
        .strings).map
      (fun r => (r.1.map (fun p => (p.1, p.2.content)), r.2)) =
      some ([(1, "a")], 0) ∧
    ("a\x00b" : String) ≠ "a" :=
  ⟨by decide, by decide⟩

/-- C4 amended: for a string table with distinct ids below 2^32 whose
contents are NUL-free and whose directory and blob fit in 32 bits, `rebuild`
emits directory entries sorted by id ascending, each directory offset equals
the total length of the blob bytes emitted for the preceding directory
entries, the output is computed from each entry's current content text alone
(the cached `length` and `raw_data` fields are irrelevant), and re-parsing
the rebuilt bytes reproduces the table's id-to-content mapping with no entry
skipped.  Contents with an interior NUL are excluded: they re-parse
truncated (see the counterexample). -/
theorem string_table_rebuild_roundtrip
    (entries : List (Nat × StringEntry)) (ft : StringFileType)
    (hkeys : (entries.map Prod.fst).Nodup)
    (hid : ∀ p ∈ entries, p.1 < 4294967296)
    (hnul : ∀ p ∈ entries, 0 ∉ utf8Bytes p.2.content)
    (hclen : ∀ p ∈ entries,
      (utf8Bytes p.2.content).length + 5 < 4294967296)
    (hsize : 8 + 8 * entries.length +
      (entries.map (fun p => p.2.getTotalSize ft)).sum < 4294967296) :
    ((rebuildDirectory entries ft).map Prod.fst).Sorted (· ≤ ·) ∧
    (∀ j p, (rebuildDirectory entries ft).get? j = some p →
      p.2 = (((rebuildDirectory entries ft).take j).map
        (fun q => (blobEntry (lookupEntry entries q.1) ft).length)).sum) ∧
    rebuild (entries.map (fun p =>
        (p.1, { p.2 with length := none, raw_data := [] }))) ft =
      rebuild entries ft ∧
    ∃ parsed, parseBytes (rebuild entries ft) ft = some (parsed, 0) ∧
      ∀ id, (parsed.lookup id).map (fun e => e.content) =
        (entries.lookup id).map (fun e => e.content) :=
  ⟨rebuildDirectory_sorted entries ft,
   rebuildDirectory_offsets entries ft hkeys hclen hsize,
   rebuild_scrub entries ft,
   ⟨reparsedItems entries ft,
    parseBytes_rebuild entries ft hkeys hid hnul hclen hsize,
    reparsedItems_lookup_content entries ft hkeys⟩⟩

theorem string_table_rebuild_roundtrip_witness :
    ∃ parsed, parseBytes (rebuild
        [(2, ⟨2, 0, 0, 0, none, "b", []⟩), (1, ⟨1, 0, 0, 0, none, "a", []⟩)]
        .strings) .strings = some (parsed, 0) ∧
      ∀ id, (parsed.lookup id).map (fun e => e.content) =
        ([(2, (⟨2, 0, 0, 0, none, "b", []⟩ : StringEntry)),
          (1, ⟨1, 0, 0, 0, none, "a", []⟩)].lookup id).map
          (fun e => e.content) :=
  (string_table_rebuild_roundtrip
    [(2, ⟨2, 0, 0, 0, none, "b", []⟩), (1, ⟨1, 0, 0, 0, none, "a", []⟩)]
    .strings (by decide) (by decide) (by decide) (by decide)
    (by decide)).2.2.2

theorem filterMap_snd_length
    (items : List ((Nat × Nat) × Option StringEntry)) :
    (items.filterMap (fun it => it.2.map (fun e => (it.1.1, e)))).length +
      (items.filter (fun it => it.2.isNone)).length = items.length := by
  induction items with
  | nil => rfl
  | cons it rest ih =>
    cases h : it.2 <;>
      simp only [List.filterMap_cons, h, Option.map_none', Option.map_some',
        List.filter_cons, Option.isNone_none, Option.isNone_some,
        if_true, List.length_cons, Bool.false_eq_true, if_false] <;>
      omega

theorem parseEntriesGo_mixed (data : List Nat) (ft : StringFileType)
    (sds : Nat) (items : List ((Nat × Nat) × Option StringEntry)) :
    ∀ (j : Nat) (acc : List (Nat × StringEntry)) (skipped : Nat),
    (∀ (k : Nat) (it : (Nat × Nat) × Option StringEntry),
      items.get? k = some it →
      readU32At data (8 + ((j + k) * 8) % 4294967296) = some it.1.1 ∧
      readU32At data (8 + ((j + k) * 8) % 4294967296 + 4) =
        some it.1.2 ∧
      match it.2 with
      | none => data.length ≤ sds + it.1.2
      | some e =>
        sds + it.1.2 < data.length ∧
        e.directory_address = 8 + ((j + k) * 8) % 4294967296 ∧
        e.relative_offset = it.1.2 ∧
        e.absolute_offset = sds + it.1.2 ∧
        readStringData data (sds + it.1.2) ft =
          some (e.content, e.raw_data, e.length) ∧
        e.id = it.1.1) →
    parseEntriesGo data ft sds j items.length acc skipped =
      some ((items.filterMap (fun it =>
          it.2.map (fun e => (it.1.1, e)))).foldl
        (fun m p => hmInsert m p.1 p.2) acc,
        skipped + (items.filter (fun it => it.2.isNone)).length) := by
  induction items with
  | nil =>
    intro j acc skipped _
    rfl
  | cons it rest ih =>
    intro j acc skipped hgood
    obtain ⟨h1, h2, h3⟩ := hgood 0 it rfl
    simp only [Nat.add_zero] at h1 h2 h3
    rw [List.length_cons, parseEntriesGo]
    simp only [h1, h2]
    cases hcase : it.2 with
    | none =>
      rw [hcase] at h3
      rw [if_pos h3]
      rw [ih (j + 1) acc (skipped + 1) (fun k it2 hk => by
        have h := hgood (k + 1) it2 (by rwa [List.get?_cons_succ])
        rwa [show j + (k + 1) = j + 1 + k by omega] at h)]
      simp only [List.filterMap_cons, hcase, Option.map_none',
        List.filter_cons, Option.isNone_none, if_true, List.length_cons,
        Option.some.injEq, Prod.mk.injEq]
      exact ⟨trivial, by omega⟩
    | some e =>
      rw [hcase] at h3
      obtain ⟨hlt, hda, hro, hao, hrs, hid2⟩ := h3
      rw [if_neg (by omega)]
      simp only [hrs]
      have hent : (⟨it.1.1, 8 + (j * 8) % 4294967296, it.1.2,
          sds + it.1.2, e.length, e.content, e.raw_data⟩ : StringEntry) =
          e := by
        obtain ⟨eid, eda, ero, eao, el, ec, erd⟩ := e
        simp only at hda hro hao hid2 ⊢
        rw [hid2, hda, hro, hao]
      rw [hent]
      rw [ih (j + 1) (hmInsert acc it.1.1 e) skipped (fun k it2 hk => by
        have h := hgood (k + 1) it2 (by rwa [List.get?_cons_succ])
        rwa [show j + (k + 1) = j + 1 + k by omega] at h)]
      simp only [List.filterMap_cons, hcase, Option.map_some',
        List.foldl_cons, List.filter_cons, Option.isNone_some,
        Bool.false_eq_true, if_false]

/-- C7: if a string-table file's header declares `items.length` directory
entries, every directory slot reads back an id and a relative offset, each
declared entry either resolves (its absolute offset is inside the file and
`read_string_data` succeeds there) or has its absolute offset beyond the end
of the file, exactly one entry is of the latter kind, and the resolved ids
are distinct, then `parse_bytes` succeeds, resolves exactly
`items.length - 1` entries, and reports exactly 1 skipped entry: the one bad
offset is skipped and counted instead of failing the file. -/
theorem single_bad_offset_skipped (data : List Nat) (ft : StringFileType)
    (items : List ((Nat × Nat) × Option StringEntry))
    (hlen8 : ¬ (data.length < 8))
    (hcount : readU32At data 0 = some items.length)
    (hne : items.length ≠ 0)
    (hds : (readU32At data 4).isSome = true)
    (hgood : ∀ k, k < items.length →
      readU32At data (8 + (k * 8) % 4294967296) =
        some (items.getD k ((0, 0), none)).1.1 ∧
      readU32At data (8 + (k * 8) % 4294967296 + 4) =
        some (items.getD k ((0, 0), none)).1.2 ∧
      match (items.getD k ((0, 0), none)).2 with
      | none => data.length ≤
          8 + items.length * 8 % 4294967296 +
            (items.getD k ((0, 0), none)).1.2
      | some e =>
        8 + items.length * 8 % 4294967296 +
            (items.getD k ((0, 0), none)).1.2 < data.length ∧
        e.directory_address = 8 + (k * 8) % 4294967296 ∧
        e.relative_offset = (items.getD k ((0, 0), none)).1.2 ∧
        e.absolute_offset = 8 + items.length * 8 % 4294967296 +
          (items.getD k ((0, 0), none)).1.2 ∧
        readStringData data (8 + items.length * 8 % 4294967296 +
          (items.getD k ((0, 0), none)).1.2) ft =
          some (e.content, e.raw_data, e.length) ∧
        e.id = (items.getD k ((0, 0), none)).1.1)
    (hone : (items.filter (fun it => it.2.isNone)).length = 1)
    (hkeys : ((items.filterMap (fun it =>
        it.2.map (fun e => (it.1.1, e)))).map Prod.fst).Nodup) :
    ∃ parsed, parseBytes data ft = some (parsed, 1) ∧
      parsed.length = items.length - 1 := by
  obtain ⟨ds, hds2⟩ := Option.isSome_iff_exists.mp hds
  refine ⟨items.filterMap (fun it => it.2.map (fun e => (it.1.1, e))),
    ?_, ?_⟩
  · rw [parseBytes, if_neg hlen8, hcount, hds2]
    show (if items.length = 0 then some ([], (0 : Nat))
      else parseEntriesGo data ft (8 + items.length * 8 % 4294967296) 0
        items.length [] 0) =
      some (items.filterMap (fun it => it.2.map (fun e => (it.1.1, e))), 1)
    rw [if_neg hne]
    rw [parseEntriesGo_mixed data ft (8 + items.length * 8 % 4294967296)
      items 0 [] 0 (fun k it hk => by
        have hklt : k < items.length := by
          by_contra hge
          rw [List.get?_eq_none.mpr (by omega)] at hk
          exact Option.noConfusion hk
        have hit : items.getD k ((0, 0), none) = it := by
          rw [show items.getD k ((0, 0), none) =
            (items.get? k).getD ((0, 0), none) from rfl, hk]
          rfl
        have hg := hgood k hklt
        rw [hit] at hg
        simpa only [Nat.zero_add] using hg)]
    rw [foldl_hmInsert_fresh _ [] (by
      rw [List.map_nil, List.nil_append]
      exact hkeys), List.nil_append, hone]
  · have h := filterMap_snd_length items
    omega

theorem single_bad_offset_skipped_witness :
    ∃ parsed, parseBytes
      [3, 0, 0, 0, 4, 0, 0, 0,
       1, 0, 0, 0, 0, 0, 0, 0,
       2, 0, 0, 0, 100, 0, 0, 0,
       3, 0, 0, 0, 2, 0, 0, 0,
       97, 0, 98, 0] .strings = some (parsed, 1) ∧
      parsed.length = 2 :=
  single_bad_offset_skipped
    [3, 0, 0, 0, 4, 0, 0, 0,
     1, 0, 0, 0, 0, 0, 0, 0,
     2, 0, 0, 0, 100, 0, 0, 0,
     3, 0, 0, 0, 2, 0, 0, 0,
     97, 0, 98, 0] .strings
    [((1, 0), some ⟨1, 8, 0, 32, none, "a", [97, 0]⟩),
     ((2, 100), none),
     ((3, 2), some ⟨3, 24, 2, 34, none, "b", [98, 0]⟩)]
    (by decide) (by decide) (by decide) (by decide)
    (by
      intro k hk
      have hk3 : k < 3 := hk
      interval_cases k <;> refine ⟨?_, ?_, ?_⟩ <;>
        simp only [List.getD_cons_zero, List.getD_cons_succ] <;> decide)
    (by decide) (by decide)

end EspParser
